import Mathlib

/-!
Verification development for the repliear synchronization layer.

This file gives a shallow embedding of the three core components described in
the design document:

* the client reconciliation reducer (src/frontend/app.tsx),
* the mutation transaction (the ReplicacheTransaction class) and the versioned
  store helpers (putEntries, delEntries, getChangedEntries, getEntry, initSpace),
* the pull reconciler (src/pages/api/replicache-pull.ts),

together with theorems about them.  JavaScript Map objects are modelled as
association lists with JS insertion-order semantics (set replaces in place,
otherwise appends), JS numbers that are used as integers (timestamps, versions,
counts) are modelled as Nat or Int, and the SQL tables are modelled as lists of
rows.  Schema bookkeeping (the meta table, timestamps, realtime publications)
carries no information used by any theorem and is omitted from the state.
-/

namespace Repliear

/-! ## String comparison

JS string comparison is lexicographic on the character sequence.  It is
modelled by an explicit recursion on the character lists (rather than the
byte-position based comparison of the core library) so that all definitions
evaluate inside the kernel. -/

def charListLt : List Char → List Char → Bool
  | _, [] => false
  | [], _ :: _ => true
  | a :: as, b :: bs => if a < b then true else if b < a then false else charListLt as bs

/-- The JS operator a < b on strings. -/
def strLt (a b : String) : Bool :=
  charListLt a.data b.data

/-- The JS comparison a ≤ b on strings, which for this total order is the
negation of b < a. -/
def strLe (a b : String) : Bool :=
  !(strLt b a)

/-! ## JS Map model

Association-list model of a JavaScript Map with string keys: set replaces the
value of an existing key in place, otherwise appends at the end; delete removes
the entry; values are enumerated in insertion order. -/

def jsMapContains {β : Type} (m : List (String × β)) (k : String) : Bool :=
  m.any (fun e => e.1 == k)

def jsMapGet {β : Type} (m : List (String × β)) (k : String) : Option β :=
  (m.find? (fun e => e.1 == k)).map Prod.snd

def jsMapSet {β : Type} (m : List (String × β)) (k : String) (v : β) :
    List (String × β) :=
  if jsMapContains m k then m.map (fun e => if e.1 == k then (k, v) else e)
  else m ++ [(k, v)]

def jsMapDelete {β : Type} (m : List (String × β)) (k : String) :
    List (String × β) :=
  m.filter (fun e => e.1 != k)

def jsMapValues {β : Type} (m : List (String × β)) : List β :=
  m.map Prod.snd

/-! ## Issue data model

The issue module (src/frontend/issue.ts) is not among the provided sources;
the shape of an issue and the key scheme are modelled from the spec and from
their uses in src/frontend/app.tsx (fields id, status, priority, created,
modified; the diff subscription is registered with the key prefix
issuePrefix). -/

inductive Status where
  | backlog
  | todo
  | inProgress
  | done
  | canceled
deriving DecidableEq, Repr, Inhabited

inductive Priority where
  | noPriority
  | urgent
  | high
  | low
  | medium
deriving DecidableEq, Repr, Inhabited

structure IssueValue where
  title : String
  priority : Priority
  status : Status
  modified : Nat
  created : Nat
deriving DecidableEq, Repr, Inhabited

structure Issue extends IssueValue where
  id : String
deriving DecidableEq, Repr, Inhabited

/-- Modelled from the spec: keys of issue entries are the issue id prefixed by
a fixed string (the diff subscription in src/frontend/app.tsx line 339 filters
on this prefix). -/
def issuePrefix : String := "issue/"

/-- Modelled from the spec: the missing issue module derives an issue from a
diff entry by taking the id from the key (stripping the fixed prefix) and the
remaining fields from the value. -/
def issueFromKeyAndValue (key : String) (value : IssueValue) : Issue :=
  ⟨value, key.drop issuePrefix.length⟩

/-! ## Filters and ordering (src/frontend/app.tsx lines 30-67, 190-201)

JS Set objects of statuses / priorities are modelled as lists used only
through membership. -/

structure Filter where
  status : Option (List Status)
  priority : Option (List Priority)
deriving DecidableEq, Repr

/-- Filter.filter from src/frontend/app.tsx lines 37-49: an issue passes when
its status is in the status set (if constrained) and its priority is in the
priority set (if constrained). -/
def Filter.filter (f : Filter) (issue : Issue) : Bool :=
  (match f.status with
   | some ss => ss.contains issue.status
   | none => true) &&
  (match f.priority with
   | some ps => ps.contains issue.priority
   | none => true)

structure Filters where
  viewFilter : Filter
  additionalFilter : Filter
deriving DecidableEq, Repr

/-- Filters.filter from src/frontend/app.tsx lines 64-66. -/
def Filters.filter (fs : Filters) (issue : Issue) : Bool :=
  fs.viewFilter.filter issue && fs.additionalFilter.filter issue

/-- The Order enum of the issue module (constant names CREATED / MODIFIED in
the source; renamed to avoid clashing with the Mathlib Order namespace). -/
inductive IssueOrder where
  | created
  | modified
deriving DecidableEq, Repr

/-- Number.MAX_SAFE_INTEGER. -/
def maxSafeInteger : Nat := 9007199254740991

/-- The order function of the reducer, src/frontend/app.tsx lines 190-201:
the composite string sort key (MAX_SAFE_INTEGER - orderValue) followed by a
dash and the issue id.  Timestamps are modelled as Nat (with truncated
subtraction; JS timestamps are far below MAX_SAFE_INTEGER, where the two
agree). -/
def orderKey (issueOrder : IssueOrder) (issue : Issue) : String :=
  let orderValue : Nat :=
    match issueOrder with
    | .created => issue.created
    | .modified => issue.modified
  toString (maxSafeInteger - orderValue) ++ "-" ++ issue.id

/-! ## lodash sortBy and sortedIndexBy -/

/-- The comparison used by sortBy: JS-ascending on the iteratee's value. -/
def leKey {α : Type} (key : α → String) (a b : α) : Prop :=
  strLe (key a) (key b) = true

/-- Strict key comparison. -/
def ltKey {α : Type} (key : α → String) (a b : α) : Prop :=
  strLt (key a) (key b) = true

instance {α : Type} (key : α → String) : DecidableRel (leKey key) :=
  fun a b => inferInstanceAs (Decidable (_ = true))

instance {α : Type} (key : α → String) : DecidableRel (ltKey key) :=
  fun a b => inferInstanceAs (Decidable (_ = true))

/-- Model of lodash sortBy with a string-valued iteratee: a sort ascending by
key. -/
def sortBy {α : Type} (key : α → String) (l : List α) : List α :=
  List.insertionSort (leKey key) l

/-- Binary-search loop of lodash sortedIndexBy (lowest insertion index).  The
fuel argument only bounds the number of iterations: every iteration shrinks
the interval by at least one, so any fuel of at least high - low (in
particular the list length, used below) computes the same result as the
unbounded loop. -/
def sortedIndexCore {α : Type} [Inhabited α] (key : α → String) (l : List α)
    (k : String) : Nat → Nat → Nat → Nat
  | 0, low, _ => low
  | fuel + 1, low, high =>
    if low < high then
      if strLt (key (l.getD ((low + high) / 2) default)) k then
        sortedIndexCore key l k fuel ((low + high) / 2 + 1) high
      else sortedIndexCore key l k fuel low ((low + high) / 2)
    else low

/-- Model of lodash sortedIndexBy(array, value, iteratee): the lowest index at
which value could be inserted to keep a key-sorted array sorted, computed by
binary search. -/
def sortedIndexBy {α : Type} [Inhabited α] (l : List α) (x : α)
    (key : α → String) : Nat :=
  sortedIndexCore key l (key x) l.length 0 l.length

/-! ## The reducer (src/frontend/app.tsx lines 133-309) -/

abbrev IssueMap := List (String × Issue)

inductive DiffOp where
  | add (key : String) (newValue : IssueValue)
  | del (key : String) (oldValue : IssueValue)
  | change (key : String) (oldValue newValue : IssueValue)
deriving DecidableEq, Repr

inductive Action where
  | init (allIssuesMap : IssueMap)
  | diff (diff : List DiffOp)
  | setFilters (filters : Filters)
  | setIssueOrder (issueOrder : IssueOrder)

structure State where
  allIssuesMap : IssueMap
  viewIssueCount : Int
  filteredIssues : List Issue
  filters : Filters
  issueOrder : IssueOrder

/-- The filterAndSort helper of the reducer (line 202-204). -/
def filterAndSort (fs : Filters) (o : IssueOrder) (issues : List Issue) :
    List Issue :=
  sortBy (orderKey o) (issues.filter (fun i => fs.filter i))

/-- The countViewIssues helper of the reducer (lines 205-213). -/
def countViewIssues (fs : Filters) (issues : List Issue) : Int :=
  (issues.countP (fun i => fs.viewFilter.filter i) : Int)

/-- One iteration of the reducer's diff loop (lines 229-282), acting on the
(map, view count, filtered list) triple. -/
def applyDiffOp (fs : Filters) (o : IssueOrder)
    (acc : IssueMap × Int × List Issue) (op : DiffOp) :
    IssueMap × Int × List Issue :=
  let m := acc.1
  let c := acc.2.1
  let fi := acc.2.2
  match op with
  | .add key newValue =>
    let newIssue := issueFromKeyAndValue key newValue
    let m := jsMapSet m key newIssue
    let c := if fs.viewFilter.filter newIssue then c + 1 else c
    let fi :=
      if fs.filter newIssue then
        fi.insertIdx (sortedIndexBy fi newIssue (orderKey o)) newIssue
      else fi
    (m, c, fi)
  | .del key oldValue =>
    let oldIssue := issueFromKeyAndValue key oldValue
    let index := sortedIndexBy fi oldIssue (orderKey o)
    let m := jsMapDelete m key
    let c := if fs.viewFilter.filter oldIssue then c - 1 else c
    let fi :=
      match fi.get? index with
      | some found => if found.id == oldIssue.id then fi.eraseIdx index else fi
      | none => fi
    (m, c, fi)
  | .change key oldValue newValue =>
    let oldIssue := issueFromKeyAndValue key oldValue
    let index := sortedIndexBy fi oldIssue (orderKey o)
    let c := if fs.viewFilter.filter oldIssue then c - 1 else c
    let fi :=
      match fi.get? index with
      | some found => if found.id == oldIssue.id then fi.eraseIdx index else fi
      | none => fi
    let newIssue := issueFromKeyAndValue key newValue
    let m := jsMapSet m key newIssue
    let c := if fs.viewFilter.filter newIssue then c + 1 else c
    let fi :=
      if fs.filter newIssue then
        fi.insertIdx (sortedIndexBy fi newIssue (orderKey o)) newIssue
      else fi
    (m, c, fi)

/-- The reducer, src/frontend/app.tsx lines 166-309.  The filters and
issueOrder in force are those of the incoming action for setFilters /
setIssueOrder and the current state's otherwise, exactly as in the source's
two leading bindings. -/
def reducer (state : State) (action : Action) : State :=
  match action with
  | .init m =>
    { state with
      allIssuesMap := m
      viewIssueCount := countViewIssues state.filters (jsMapValues m)
      filteredIssues := filterAndSort state.filters state.issueOrder (jsMapValues m) }
  | .diff ops =>
    let r := ops.foldl (applyDiffOp state.filters state.issueOrder)
      (state.allIssuesMap, state.viewIssueCount, state.filteredIssues)
    { state with
      allIssuesMap := r.1
      viewIssueCount := r.2.1
      filteredIssues := r.2.2 }
  | .setFilters fs =>
    { state with
      viewIssueCount := countViewIssues fs (jsMapValues state.allIssuesMap)
      filters := fs
      filteredIssues := filterAndSort fs state.issueOrder (jsMapValues state.allIssuesMap) }
  | .setIssueOrder o =>
    { state with
      filteredIssues := sortBy (orderKey o) state.filteredIssues
      issueOrder := o }

/-! ## Versioned store (the data helpers of the backend data module)

Entry values are opaque JSON payloads; the constructors below cover the
payloads the modelled code produces (issue values, the partial-sync control
object, and other opaque payloads).  JSON.stringify / JSON.parse round-trips
are modelled as the identity. -/

inductive Value where
  | issueVal (v : IssueValue)
  | syncControl (endKey : Option String)
  | raw (s : String)
deriving DecidableEq, Repr

/-- One row of the entry table (spaceid, key, value, deleted, version); the
lastmodified timestamp carries no information used here and is omitted. -/
structure EntryRow where
  spaceid : String
  key : String
  value : Value
  deleted : Bool
  version : Nat
deriving DecidableEq, Repr

/-- The store state: the space table (id, version), the client table
(id, lastmutationid) and the entry table. -/
structure DB where
  spaces : List (String × Nat)
  clients : List (String × Nat)
  entries : List EntryRow
deriving DecidableEq, Repr

/-- Lookup of the unique row for (spaceid, key); the table carries a unique
index on this pair. -/
def rowLookup (db : DB) (spaceID key : String) : Option EntryRow :=
  db.entries.find? (fun e => e.spaceid == spaceID && e.key == key)

/-- getEntry from the backend data module: the value of the non-deleted row
for this space and key. -/
def getEntry (db : DB) (spaceID key : String) : Option Value :=
  (db.entries.find?
    (fun e => e.spaceid == spaceID && e.key == key && !e.deleted)).map
    (fun e => e.value)

/-- One row of the multi-row upsert issued by putEntries: insert, or on
conflict of (spaceid, key) update value, deleted = false and version. -/
def upsertEntry (db : DB) (spaceID key : String) (v : Value) (version : Nat) :
    DB :=
  if db.entries.any (fun e => e.spaceid == spaceID && e.key == key) then
    { db with
      entries := db.entries.map (fun e =>
        if e.spaceid == spaceID && e.key == key then
          { e with value := v, deleted := false, version := version }
        else e) }
  else
    { db with entries := db.entries ++ [⟨spaceID, key, v, false, version⟩] }

/-- putEntries from the backend data module: early return on empty input,
otherwise one batched upsert of all rows (row keys are distinct when called
from flush, since they come from a Map). -/
def putEntries (db : DB) (spaceID : String) (entries : List (String × Value))
    (version : Nat) : DB :=
  if entries.isEmpty then db
  else entries.foldl (fun db kv => upsertEntry db spaceID kv.1 kv.2 version) db

/-- delEntries from the backend data module: early return on empty input,
otherwise update deleted = true and the version on every row of the space
whose key is in the list (rows are never physically removed). -/
def delEntries (db : DB) (spaceID : String) (keys : List String)
    (version : Nat) : DB :=
  if keys.isEmpty then db
  else
    { db with
      entries := db.entries.map (fun e =>
        if e.spaceid == spaceID && keys.contains e.key then
          { e with deleted := true, version := version }
        else e) }

/-- getChangedEntries from the backend data module: key, value and deleted
flag of every row of the space with version strictly above prevVersion (the
SQL query has no ORDER BY; table order is used). -/
def getChangedEntries (db : DB) (spaceID : String) (prevVersion : Nat) :
    List (String × Value × Bool) :=
  (db.entries.filter
    (fun e => e.spaceid == spaceID && prevVersion < e.version)).map
    (fun e => (e.key, e.value, e.deleted))

/-- getLastMutationID from the backend data module. -/
def getLastMutationID (db : DB) (clientID : String) : Option Nat :=
  (db.clients.find? (fun e => e.1 == clientID)).map Prod.snd

/-- Modelled from the spec: getVersion (imported by the pull endpoint but
absent from the provided sources) returns the space's version counter, the
per-space cookie. -/
def getVersion (db : DB) (spaceID : String) : Option Nat :=
  (db.spaces.find? (fun e => e.1 == spaceID)).map Prod.snd

/-- Modelled from the spec: the metadata subset is the curated priority
subset of keys (issue summaries) sent first during full sync; a key belongs
to it when it carries the issue prefix. -/
def isIssueMetaKey (key : String) : Bool :=
  issuePrefix.data.isPrefixOf key.data

/-- Modelled from the spec: getIssueMeta (imported by the pull endpoint but
absent from the provided sources) returns key and value of every live
metadata-subset entry of the space. -/
def getIssueMeta (db : DB) (spaceID : String) : List (String × Value) :=
  (db.entries.filter
    (fun e => e.spaceid == spaceID && !e.deleted && isIssueMetaKey e.key)).map
    (fun e => (e.key, e.value))

/-- Modelled from the spec: getNonIssueMetaEntries (imported by the pull
endpoint but absent from the provided sources) returns up to limit live
non-metadata entries of the space with key strictly greater than endKey,
ordered by key. -/
def getNonIssueMetaEntries (db : DB) (spaceID : String) (endKey : String)
    (limit : Nat) : List (String × Value) :=
  (sortBy Prod.fst
    ((db.entries.filter (fun e =>
        e.spaceid == spaceID && !e.deleted && !isIssueMetaKey e.key &&
        strLt endKey e.key)).map
      (fun e => (e.key, e.value)))).take limit

/-! ## ReplicacheTransaction (the mutation transaction) -/

/-- The in-memory overlay of a ReplicacheTransaction: key to (value at that
key, where none records a pending delete, together with the dirty flag). -/
abbrev TxCache := List (String × (Option Value × Bool))

/-- The ReplicacheTransaction state: the constructor arguments and the cache
(the executor is passed separately as the DB argument of the reading
operations). -/
structure ReplicacheTransaction where
  spaceID : String
  clientID : String
  version : Nat
  cache : TxCache
deriving Repr

/-- ReplicacheTransaction.put: mark the overlay entry dirty with the new
value. -/
def ReplicacheTransaction.put (tx : ReplicacheTransaction) (key : String)
    (value : Value) : ReplicacheTransaction :=
  { tx with cache := jsMapSet tx.cache key (some value, true) }

/-- ReplicacheTransaction.get: overlay first; on miss read through to the
store and cache the result marked clean. -/
def ReplicacheTransaction.get (tx : ReplicacheTransaction) (db : DB)
    (key : String) : Option Value × ReplicacheTransaction :=
  match jsMapGet tx.cache key with
  | some entry => (entry.1, tx)
  | none =>
    let value := getEntry db tx.spaceID key
    (value, { tx with cache := jsMapSet tx.cache key (value, false) })

/-- ReplicacheTransaction.has: whether get returns a value. -/
def ReplicacheTransaction.has (tx : ReplicacheTransaction) (db : DB)
    (key : String) : Bool × ReplicacheTransaction :=
  let r := tx.get db key
  (r.1.isSome, r.2)

/-- ReplicacheTransaction.del: an implicit read (has), then mark the overlay
entry dirty with an absent value; returns whether a value existed before. -/
def ReplicacheTransaction.del (tx : ReplicacheTransaction) (db : DB)
    (key : String) : Bool × ReplicacheTransaction :=
  let r := tx.has db key
  (r.1, { r.2 with cache := jsMapSet r.2.cache key (none, true) })

/-- ReplicacheTransaction.flush: partition the dirty overlay entries into
puts (present value) and deletes (absent value) and issue both batched
writes, stamped with the transaction's fixed version.  The source runs the
two batches concurrently on disjoint key sets; they are sequenced here. -/
def ReplicacheTransaction.flush (tx : ReplicacheTransaction) (db : DB) : DB :=
  let dirtyEntries := tx.cache.filter (fun e => e.2.2)
  let entriesToPut := dirtyEntries.filterMap (fun e =>
    match e.2.1 with
    | some v => some (e.1, v)
    | none => none)
  let keysToDel := (dirtyEntries.filter (fun e => e.2.1.isNone)).map Prod.fst
  putEntries (delEntries db tx.spaceID keysToDel tx.version) tx.spaceID
    entriesToPut tx.version

/-! ## Space initialization (initSpace of the backend data module) -/

def sampleSpaceID : String := "sampleSpaceID"

def initialVersion : Nat := 1

/-- Modelled from the spec: putIssue (from the missing issue module) writes
the issue value under the prefixed issue key through the transaction. -/
def putIssue (tx : ReplicacheTransaction) (issue : Issue) :
    ReplicacheTransaction :=
  tx.put (issuePrefix ++ issue.id) (Value.issueVal issue.toIssueValue)

/-- initSpace from the backend data module: no-op when the space row exists;
otherwise seed the sample space on its very first absence (insert its row,
write the sample issues through one transaction, flush), then insert the
requested space's row and bulk-copy the sample space's entries to it.  The
sample-issue getter is a parameter, as in the source. -/
def initSpace (db : DB) (spaceID : String) (sampleIssues : List Issue) : DB :=
  if db.spaces.any (fun e => e.1 == spaceID) then db
  else
    let db1 :=
      if db.spaces.any (fun e => e.1 == sampleSpaceID) then db
      else
        let dbS := { db with spaces := db.spaces ++ [(sampleSpaceID, initialVersion)] }
        let tx := sampleIssues.foldl putIssue
          ⟨sampleSpaceID, "fake-client-id-for-server-init", initialVersion, []⟩
        tx.flush dbS
    let db2 := { db1 with spaces := db1.spaces ++ [(spaceID, initialVersion)] }
    { db2 with
      entries := db2.entries ++
        (db1.entries.filter (fun e => e.spaceid == sampleSpaceID)).map
          (fun e => { e with spaceid := spaceID }) }

/-! ## The pull reconciler (src/pages/api/replicache-pull.ts) -/

structure Cookie where
  version : Nat
  endKey : Option String
deriving DecidableEq, Repr

inductive PatchOp where
  | put (key : String) (value : Value)
  | del (key : String)
deriving DecidableEq, Repr

structure PullResponse where
  lastMutationID : Nat
  cookie : Cookie
  patch : List PatchOp
deriving DecidableEq, Repr

/-- The patch mapping of the pull endpoint (lines 106-119): a deleted entry
becomes a del op, every other entry a put op (entries from the metadata and
paging queries carry no deleted flag, which is modelled as false). -/
def toPatchOp (e : String × Value × Bool) : PatchOp :=
  if e.2.2 then .del e.1 else .put e.1 e.2.1

/-- The pull handler, src/pages/api/replicache-pull.ts lines 25-124, after
request validation.  createDatabase only touches schema bookkeeping and is
modelled as the identity on the store state.  The sample-issue getter passed
to initSpace is a parameter. -/
def pull (db : DB) (spaceID clientID : String) (requestCookie : Option Cookie)
    (sampleIssues : List Issue) : PullResponse :=
  let db := initSpace db spaceID sampleIssues
  let lastMutationID := (getLastMutationID db clientID).getD 0
  match requestCookie with
  | none =>
    let entries := getIssueMeta db spaceID
    let version := (getVersion db spaceID).getD 0
    { lastMutationID := lastMutationID
      cookie := ⟨version, some ""⟩
      patch := entries.map (fun e => toPatchOp (e.1, e.2, false)) }
  | some c =>
    let entries := getChangedEntries db spaceID c.version
    match c.endKey with
    | none =>
      let version := (getVersion db spaceID).getD 0
      { lastMutationID := lastMutationID
        cookie := ⟨version, none⟩
        patch := entries.map toPatchOp }
    | some endKey =>
      let limit := 3000
      let incrementalEntries := getNonIssueMetaEntries db spaceID endKey limit
      let initialSyncDone := incrementalEntries.length < limit
      let responseEndKey : Option String :=
        if initialSyncDone then none
        else incrementalEntries.getLast?.map Prod.fst
      let entries := entries ++ incrementalEntries.map (fun e => (e.1, e.2, false)) ++
        [("control/partialSync", Value.syncControl responseEndKey, false)]
      let version := (getVersion db spaceID).getD 0
      { lastMutationID := lastMutationID
        cookie := ⟨version, responseEndKey⟩
        patch := entries.map toPatchOp }

/-! ## Operation sequences over one transaction -/

/-- A write operation performed on a transaction before its flush. -/
inductive TxOp where
  | put (key : String) (value : Value)
  | del (key : String)
deriving DecidableEq, Repr

def applyTxOp (db : DB) (tx : ReplicacheTransaction) (op : TxOp) :
    ReplicacheTransaction :=
  match op with
  | .put k v => tx.put k v
  | .del k => (tx.del db k).2

def applyTxOps (db : DB) (tx : ReplicacheTransaction) (ops : List TxOp) :
    ReplicacheTransaction :=
  ops.foldl (applyTxOp db) tx

/-- A read-only operation on a transaction. -/
inductive ReadOp where
  | get (key : String)
  | has (key : String)
deriving DecidableEq, Repr

def applyReadOp (db : DB) (tx : ReplicacheTransaction) (op : ReadOp) :
    ReplicacheTransaction :=
  match op with
  | .get k => (tx.get db k).2
  | .has k => (tx.has db k).2

def applyReadOps (db : DB) (tx : ReplicacheTransaction) (ops : List ReadOp) :
    ReplicacheTransaction :=
  ops.foldl (applyReadOp db) tx

/-! ## Well-formed diff streams

The diff stream delivered to the reducer is produced by the sync client from
committed changes: an add arrives only for a key not in the map, a del or
change carries as old value exactly the value currently stored at its key,
and (because the subscription in src/frontend/app.tsx line 339 is registered
with the issue prefix) every key carries that prefix. -/

/-- The effect of one diff operation on the issue map alone. -/
def opMap (m : IssueMap) : DiffOp → IssueMap
  | .add k v => jsMapSet m k (issueFromKeyAndValue k v)
  | .del k _ => jsMapDelete m k
  | .change k _ v => jsMapSet m k (issueFromKeyAndValue k v)

def opsMap (m : IssueMap) (ops : List DiffOp) : IssueMap :=
  ops.foldl opMap m

/-- Well-formedness of one diff operation against the current map. -/
def WfOp (m : IssueMap) : DiffOp → Prop
  | .add k _ => jsMapGet m k = none ∧ ∃ id, k = issuePrefix ++ id
  | .del k ov => jsMapGet m k = some (issueFromKeyAndValue k ov)
  | .change k ov _ => jsMapGet m k = some (issueFromKeyAndValue k ov)

/-- Well-formedness of a list of diff operations applied in sequence. -/
inductive WfOps : IssueMap → List DiffOp → Prop
  | nil (m : IssueMap) : WfOps m []
  | cons {m : IssueMap} {op : DiffOp} {ops : List DiffOp} :
      WfOp m op → WfOps (opMap m op) ops → WfOps m (op :: ops)

/-- Well-formedness of a sequence of diff actions applied in sequence. -/
inductive WfDiffActions : IssueMap → List Action → Prop
  | nil (m : IssueMap) : WfDiffActions m []
  | cons {m : IssueMap} {ops : List DiffOp} {acts : List Action} :
      WfOps m ops → WfDiffActions (opsMap m ops) acts →
      WfDiffActions m (Action.diff ops :: acts)

/-- Well-formedness of an initial issue map: distinct keys (it is a Map),
every key carries the issue prefix, and every value's id is derived from its
key, as issueFromKeyAndValue produces it. -/
def WfMap (m : IssueMap) : Prop :=
  (m.map Prod.fst).Nodup ∧
  ∀ e ∈ m, (∃ id, e.1 = issuePrefix ++ id) ∧
    e.2.id = e.1.drop issuePrefix.length

/-- The put list of a flush. -/
def flushPuts (c : TxCache) : List (String × Value) :=
  (c.filter (fun e => e.2.2)).filterMap (fun e =>
    match e.2.1 with
    | some v => some (e.1, v)
    | none => none)

/-- The delete list of a flush. -/
def flushDels (c : TxCache) : List String :=
  ((c.filter (fun e => e.2.2)).filter (fun e => e.2.1.isNone)).map Prod.fst

/-- The invariant maintained by the reducer over well-formed diff streams:
the issue map has distinct keys, every entry's key carries the issue prefix
and its value's id is derived from its key, and the filtered list is strictly
sorted by the order key and is a permutation of the filtered map values. -/
def Inv (fs : Filters) (o : IssueOrder) (m : IssueMap) (fi : List Issue) : Prop :=
  (m.map Prod.fst).Nodup ∧
  (∀ e ∈ m, (∃ id, e.1 = issuePrefix ++ id) ∧
    e.2.id = e.1.drop issuePrefix.length) ∧
  List.Sorted (ltKey (orderKey o)) fi ∧
  fi.Perm ((jsMapValues m).filter (fun i => fs.filter i))

/-! ## Order theory of the string comparison -/

theorem charListLt_irrefl (l : List Char) : charListLt l l = false := by
  induction l with
  | nil => rfl
  | cons a as ih => simp [charListLt, if_neg (lt_irrefl a), ih]

theorem charListLt_asymm : ∀ {l₁ l₂ : List Char},
    charListLt l₁ l₂ = true → charListLt l₂ l₁ = true → False
  | [], [], h₁, _ => by simp [charListLt] at h₁
  | [], _ :: _, _, h₂ => by simp [charListLt] at h₂
  | _ :: _, [], h₁, _ => by simp [charListLt] at h₁
  | a :: as, b :: bs, h₁, h₂ => by
    by_cases hab : a < b
    · rw [charListLt, if_neg (lt_asymm hab), if_pos hab] at h₂
      exact Bool.false_ne_true h₂
    · by_cases hba : b < a
      · rw [charListLt, if_neg hab, if_pos hba] at h₁
        exact Bool.false_ne_true h₁
      · rw [charListLt, if_neg hab, if_neg hba] at h₁
        rw [charListLt, if_neg hba, if_neg hab] at h₂
        exact charListLt_asymm h₁ h₂

theorem charListLt_trans : ∀ {l₁ l₂ l₃ : List Char},
    charListLt l₁ l₂ = true → charListLt l₂ l₃ = true → charListLt l₁ l₃ = true
  | _, [], _, h₁, _ => by simp [charListLt] at h₁
  | _, _ :: _, [], _, h₂ => by simp [charListLt] at h₂
  | [], _ :: _, _ :: _, _, _ => by simp [charListLt]
  | a :: as, b :: bs, c :: cs, h₁, h₂ => by
    by_cases hab : a < b
    · by_cases hbc : b < c
      · rw [charListLt, if_pos (lt_trans hab hbc)]
      · by_cases hcb : c < b
        · rw [charListLt, if_neg hbc, if_pos hcb] at h₂
          exact absurd h₂ (by simp)
        · have hbceq : b = c := le_antisymm (le_of_not_lt hcb) (le_of_not_lt hbc)
          rw [charListLt, if_pos (hbceq ▸ hab)]
    · by_cases hba : b < a
      · rw [charListLt, if_neg hab, if_pos hba] at h₁
        exact absurd h₁ (by simp)
      · have habeq : a = b := le_antisymm (le_of_not_lt hba) (le_of_not_lt hab)
        rw [charListLt, if_neg hab, if_neg hba] at h₁
        by_cases hbc : b < c
        · rw [charListLt, if_pos (habeq ▸ hbc)]
        · by_cases hcb : c < b
          · rw [charListLt, if_neg hbc, if_pos hcb] at h₂
            exact absurd h₂ (by simp)
          · have hbceq : b = c := le_antisymm (le_of_not_lt hcb) (le_of_not_lt hbc)
            rw [charListLt, if_neg hbc, if_neg hcb] at h₂
            have hac : ¬ a < c := hbceq ▸ habeq ▸ lt_irrefl a
            have hca : ¬ c < a := hbceq ▸ habeq ▸ lt_irrefl a
            rw [charListLt, if_neg hac, if_neg hca]
            exact charListLt_trans h₁ h₂

theorem charListLt_eq_of_not : ∀ {l₁ l₂ : List Char},
    charListLt l₁ l₂ = false → charListLt l₂ l₁ = false → l₁ = l₂
  | [], [], _, _ => rfl
  | [], _ :: _, h₁, _ => by simp [charListLt] at h₁
  | _ :: _, [], _, h₂ => by simp [charListLt] at h₂
  | a :: as, b :: bs, h₁, h₂ => by
    by_cases hab : a < b
    · rw [charListLt, if_pos hab] at h₁
      exact absurd h₁ (by simp)
    · by_cases hba : b < a
      · rw [charListLt, if_pos hba] at h₂
        exact absurd h₂ (by simp)
      · have habeq : a = b := le_antisymm (le_of_not_lt hba) (le_of_not_lt hab)
        rw [charListLt, if_neg hab, if_neg hba] at h₁
        rw [charListLt, if_neg hba, if_neg hab] at h₂
        rw [habeq, charListLt_eq_of_not h₁ h₂]

theorem strLt_irrefl (a : String) : strLt a a = false :=
  charListLt_irrefl a.data

theorem strLt_asymm {a b : String} (h₁ : strLt a b = true) (h₂ : strLt b a = true) :
    False :=
  charListLt_asymm h₁ h₂

theorem strLt_trans {a b c : String} (h₁ : strLt a b = true) (h₂ : strLt b c = true) :
    strLt a c = true :=
  charListLt_trans h₁ h₂

theorem str_eq_of_not_lt {a b : String} (h₁ : strLt a b = false)
    (h₂ : strLt b a = false) : a = b :=
  String.ext (charListLt_eq_of_not h₁ h₂)

theorem strLe_refl (a : String) : strLe a a = true := by
  simp [strLe, strLt_irrefl]

theorem strLe_of_strLt {a b : String} (h : strLt a b = true) : strLe a b = true := by
  cases h' : strLt b a with
  | false => simp [strLe, h']
  | true => exact absurd (strLt_asymm h h') (by simp)

theorem strLt_of_strLe_of_strLt {a b c : String} (h₁ : strLe a b = true)
    (h₂ : strLt b c = true) : strLt a c = true := by
  have hba : strLt b a = false := by
    cases h' : strLt b a with
    | false => rfl
    | true => simp [strLe, h'] at h₁
  cases h' : strLt a c with
  | true => rfl
  | false =>
    cases hab : strLt a b with
    | true => exact absurd (strLt_trans hab h₂) (by simp [h'])
    | false =>
      have : a = b := str_eq_of_not_lt hab hba
      rw [this, h₂] at h'
      exact absurd h' (by simp)

theorem strLt_of_strLt_of_strLe {a b c : String} (h₁ : strLt a b = true)
    (h₂ : strLe b c = true) : strLt a c = true := by
  have hcb : strLt c b = false := by
    cases h' : strLt c b with
    | false => rfl
    | true => simp [strLe, h'] at h₂
  cases h' : strLt a c with
  | true => rfl
  | false =>
    cases hbc : strLt b c with
    | true => exact absurd (strLt_trans h₁ hbc) (by simp [h'])
    | false =>
      have : b = c := str_eq_of_not_lt hbc hcb
      rw [← this, h₁] at h'
      exact absurd h' (by simp)

theorem strLe_total (a b : String) : strLe a b = true ∨ strLe b a = true := by
  cases h : strLt b a with
  | false => exact Or.inl (by simp [strLe, h])
  | true =>
    cases h' : strLt a b with
    | false => exact Or.inr (by simp [strLe, h'])
    | true => exact absurd (strLt_asymm h' h) (by simp)

theorem strLe_trans {a b c : String} (h₁ : strLe a b = true)
    (h₂ : strLe b c = true) : strLe a c = true := by
  cases h : strLt c a with
  | false => simp [strLe, h]
  | true => simp [strLe, strLt_of_strLt_of_strLe h h₁] at h₂

theorem strLt_of_strLe_of_ne {a b : String} (h₁ : strLe a b = true) (h₂ : a ≠ b) :
    strLt a b = true := by
  have hba : strLt b a = false := by
    cases h' : strLt b a with
    | false => rfl
    | true => simp [strLe, h'] at h₁
  cases h' : strLt a b with
  | true => rfl
  | false => exact absurd (str_eq_of_not_lt h' hba) h₂

theorem strLe_of_not_strLt {a b : String} (h : strLt b a = false) :
    strLe a b = true := by
  simp [strLe, h]

theorem not_strLt_of_strLe {a b : String} (h : strLe a b = true) :
    strLt b a = false := by
  cases h' : strLt b a with
  | false => rfl
  | true => simp [strLe, h'] at h

/-! ## sortBy lemmas -/

instance {α : Type} (key : α → String) : IsTotal α (leKey key) :=
  ⟨fun a b => strLe_total (key a) (key b)⟩

instance {α : Type} (key : α → String) : IsTrans α (leKey key) :=
  ⟨fun _ _ _ h₁ h₂ => strLe_trans h₁ h₂⟩

theorem sortBy_perm {α : Type} (key : α → String) (l : List α) :
    (sortBy key l).Perm l :=
  List.perm_insertionSort (leKey key) l

theorem sortBy_sorted {α : Type} (key : α → String) (l : List α) :
    (sortBy key l).Sorted (leKey key) :=
  List.sorted_insertionSort (leKey key) l

/-! ## Injectivity of the order key

Distinct issue ids give distinct order keys: the numeric part of the key is a
digit string and therefore contains no dash, so the first dash separates the
numeric part from the id. -/

theorem digitChar_ne_dash {m : Nat} (hm : m < 10) : Nat.digitChar m ≠ '-' := by
  interval_cases m <;> decide

theorem toDigitsCore_ne_dash :
    ∀ (fuel n : Nat) (ds : List Char), (∀ c ∈ ds, c ≠ '-') →
      ∀ c ∈ Nat.toDigitsCore 10 fuel n ds, c ≠ '-' := by
  intro fuel
  induction fuel with
  | zero =>
    intro n ds h c hc
    simp only [Nat.toDigitsCore] at hc
    exact h c hc
  | succ fuel ih =>
    intro n ds h c hc
    simp only [Nat.toDigitsCore] at hc
    split at hc
    · rcases List.mem_cons.mp hc with h' | h'
      · exact h' ▸ digitChar_ne_dash (Nat.mod_lt _ (by norm_num))
      · exact h c h'
    · refine ih _ _ ?_ c hc
      intro c' hc'
      rcases List.mem_cons.mp hc' with h' | h'
      · exact h' ▸ digitChar_ne_dash (Nat.mod_lt _ (by norm_num))
      · exact h c' h'

theorem natToString_ne_dash (n : Nat) : ∀ c ∈ (toString n).data, c ≠ '-' := by
  intro c hc
  exact toDigitsCore_ne_dash (n + 1) n [] (by simp) c hc

theorem append_dash_inj :
    ∀ (a₁ : List Char) {a₂ b₁ b₂ : List Char}, (∀ c ∈ a₁, c ≠ '-') →
      (∀ c ∈ a₂, c ≠ '-') → a₁ ++ '-' :: b₁ = a₂ ++ '-' :: b₂ →
      a₁ = a₂ ∧ b₁ = b₂ := by
  intro a₁
  induction a₁ with
  | nil =>
    intro a₂ b₁ b₂ _ h₂ he
    cases a₂ with
    | nil => simpa using he
    | cons y ys =>
      exfalso
      have : '-' = y := by simpa using congrArg (fun l => l.headI) he
      exact h₂ y (by simp) this.symm
  | cons x xs ih =>
    intro a₂ b₁ b₂ h₁ h₂ he
    cases a₂ with
    | nil =>
      exfalso
      have : x = '-' := by simpa using congrArg (fun l => l.headI) he
      exact h₁ x (by simp) this
    | cons y ys =>
      simp only [List.cons_append, List.cons.injEq] at he
      obtain ⟨hxy, he⟩ := he
      obtain ⟨ha, hb⟩ := ih (fun c hc => h₁ c (List.mem_cons_of_mem _ hc))
        (fun c hc => h₂ c (List.mem_cons_of_mem _ hc)) he
      exact ⟨by rw [hxy, ha], hb⟩

theorem orderKey_data (o : IssueOrder) (i : Issue) :
    (orderKey o i).data =
      (toString (maxSafeInteger -
        (match o with | .created => i.created | .modified => i.modified))).data ++
      '-' :: i.id.data := by
  cases o <;> simp [orderKey, String.data_append]

theorem orderKey_inj {o : IssueOrder} {i₁ i₂ : Issue}
    (h : orderKey o i₁ = orderKey o i₂) : i₁.id = i₂.id := by
  have hd := congrArg String.data h
  rw [orderKey_data, orderKey_data] at hd
  obtain ⟨-, hb⟩ := append_dash_inj _ (natToString_ne_dash _) (natToString_ne_dash _) hd
  exact String.ext hb

theorem drop_prefix_append (id : String) :
    (issuePrefix ++ id).drop issuePrefix.length = id := by
  apply String.ext
  rw [String.drop_eq]
  show List.drop issuePrefix.length (issuePrefix ++ id).data = id.data
  rw [String.data_append]
  exact List.drop_left issuePrefix.data id.data

theorem prefix_key_inj {k₁ k₂ : String} (h₁ : ∃ id, k₁ = issuePrefix ++ id)
    (h₂ : ∃ id, k₂ = issuePrefix ++ id)
    (h : k₁.drop issuePrefix.length = k₂.drop issuePrefix.length) : k₁ = k₂ := by
  obtain ⟨id₁, rfl⟩ := h₁
  obtain ⟨id₂, rfl⟩ := h₂
  rw [drop_prefix_append, drop_prefix_append] at h
  rw [h]

/-! ## Specification of the binary search -/

theorem sortedIndexCore_bounds {α : Type} [Inhabited α] (key : α → String)
    (l : List α) (k : String) :
    ∀ (fuel low high : Nat), low ≤ high →
      low ≤ sortedIndexCore key l k fuel low high ∧
      sortedIndexCore key l k fuel low high ≤ high := by
  intro fuel
  induction fuel with
  | zero => intro low high h; exact ⟨le_refl _, h⟩
  | succ fuel ih =>
    intro low high h
    simp only [sortedIndexCore]
    by_cases hlh : low < high
    · rw [if_pos hlh]
      by_cases hmid : strLt (key (l.getD ((low + high) / 2) default)) k = true
      · rw [if_pos hmid]
        obtain ⟨h₁, h₂⟩ := ih ((low + high) / 2 + 1) high (by omega)
        exact ⟨by omega, h₂⟩
      · rw [if_neg hmid]
        obtain ⟨h₁, h₂⟩ := ih low ((low + high) / 2) (by omega)
        exact ⟨h₁, by omega⟩
    · rw [if_neg hlh]
      exact ⟨le_refl _, h⟩

theorem sortedIndexCore_spec {α : Type} [Inhabited α] {key : α → String}
    {l : List α} {k : String} (hs : List.Sorted (leKey key) l) :
    ∀ (fuel low high : Nat), high - low ≤ fuel → low ≤ high → high ≤ l.length →
      (∀ (i : Nat) (hi : i < l.length), i < low → strLt (key l[i]) k = true) →
      (∀ (i : Nat) (hi : i < l.length), high ≤ i → strLt (key l[i]) k = false) →
      (∀ (i : Nat) (hi : i < l.length),
          i < sortedIndexCore key l k fuel low high → strLt (key l[i]) k = true) ∧
      (∀ (i : Nat) (hi : i < l.length),
          sortedIndexCore key l k fuel low high ≤ i → strLt (key l[i]) k = false) := by
  have hpw := List.pairwise_iff_getElem.mp hs
  intro fuel
  induction fuel with
  | zero =>
    intro low high hfuel hlh _ hlow hhigh
    have : low = high := by omega
    subst this
    exact ⟨hlow, hhigh⟩
  | succ fuel ih =>
    intro low high hfuel hlh hlen hlow hhigh
    simp only [sortedIndexCore]
    by_cases h : low < high
    · rw [if_pos h]
      have hmlt : (low + high) / 2 < high := by omega
      have hmge : low ≤ (low + high) / 2 := by omega
      have hmlen : (low + high) / 2 < l.length := lt_of_lt_of_le hmlt hlen
      rw [List.getD_eq_getElem l default hmlen]
      by_cases hmid : strLt (key l[(low + high) / 2]) k = true
      · rw [if_pos hmid]
        refine ih ((low + high) / 2 + 1) high (by omega) (by omega) hlen ?_ hhigh
        intro i hi hilt
        rcases lt_or_ge i low with hil | hil
        · exact hlow i hi hil
        · rcases Nat.lt_or_ge i ((low + high) / 2) with him | him
          · exact strLt_of_strLe_of_strLt (hpw i ((low + high) / 2) hi hmlen him) hmid
          · have : i = (low + high) / 2 := by omega
            subst this
            exact hmid
      · rw [if_neg hmid]
        have hmidf : strLt (key l[(low + high) / 2]) k = false := by
          cases h' : strLt (key l[(low + high) / 2]) k with
          | true => exact absurd h' hmid
          | false => rfl
        refine ih low ((low + high) / 2) (by omega) (by omega)
          (le_of_lt hmlen) hlow ?_
        intro i hi hile
        rcases Nat.lt_or_ge i high with hih | hih
        · rcases Nat.eq_or_lt_of_le hile with h' | h'
          · subst h'
            exact hmidf
          · cases h'' : strLt (key l[i]) k with
            | false => rfl
            | true =>
              have := strLt_of_strLe_of_strLt (hpw _ i hmlen hi h') h''
              rw [this] at hmidf
              exact absurd hmidf (by simp)
        · exact hhigh i hi hih
    · rw [if_neg h]
      have : low = high := by omega
      subst this
      exact ⟨hlow, hhigh⟩

theorem sortedIndexBy_le_length {α : Type} [Inhabited α] (l : List α) (x : α)
    (key : α → String) : sortedIndexBy l x key ≤ l.length :=
  (sortedIndexCore_bounds key l (key x) l.length 0 l.length (Nat.zero_le _)).2

theorem sortedIndexBy_spec {α : Type} [Inhabited α] {key : α → String}
    {l : List α} (x : α) (hs : List.Sorted (leKey key) l) :
    (∀ (i : Nat) (hi : i < l.length),
        i < sortedIndexBy l x key → strLt (key l[i]) (key x) = true) ∧
    (∀ (i : Nat) (hi : i < l.length),
        sortedIndexBy l x key ≤ i → strLt (key l[i]) (key x) = false) :=
  sortedIndexCore_spec hs l.length 0 l.length (by omega) (Nat.zero_le _)
    (le_refl _) (fun i _ h => absurd h (Nat.not_lt_zero i))
    (fun i hi h => absurd hi (by omega))

/-! ## Splice helpers -/

theorem insertIdx_eq_take_cons_drop {α : Type} :
    ∀ (n : Nat) (x : α) (l : List α), n ≤ l.length →
      l.insertIdx n x = l.take n ++ x :: l.drop n := by
  intro n
  induction n with
  | zero => intro x l _; simp
  | succ n ih =>
    intro x l h
    cases l with
    | nil => simp at h
    | cons a as =>
      rw [List.insertIdx_succ_cons, List.take_succ_cons, List.drop_succ_cons,
        ih x as (by simpa using h), List.cons_append]

theorem insertIdx_perm {α : Type} (n : Nat) (x : α) (l : List α)
    (h : n ≤ l.length) : (l.insertIdx n x).Perm (x :: l) := by
  rw [insertIdx_eq_take_cons_drop n x l h]
  calc (l.take n ++ x :: l.drop n).Perm (x :: (l.take n ++ l.drop n)) :=
        List.perm_middle
  _ = x :: l := by rw [List.take_append_drop]

theorem getElem_cons_decomp {α : Type} (l : List α) (r : Nat)
    (h : r < l.length) : l = l.take r ++ l[r] :: l.drop (r + 1) := by
  conv_lhs => rw [← List.take_append_drop r l]
  rw [List.drop_eq_getElem_cons h]

theorem mem_take_spec {α : Type} {l : List α} {r : Nat} {z : α}
    (hz : z ∈ l.take r) : ∃ j, ∃ hj : j < l.length, j < r ∧ l[j] = z := by
  obtain ⟨j, hj, he⟩ := List.mem_iff_getElem.mp hz
  rw [List.length_take] at hj
  have hjr : j < r := lt_of_lt_of_le hj (min_le_left _ _)
  have hjlen : j < l.length := lt_of_lt_of_le hj (min_le_right _ _)
  exact ⟨j, hjlen, hjr, by rw [List.getElem_take' l hjlen hjr]; exact he⟩

theorem mem_drop_spec {α : Type} {l : List α} {r : Nat} {z : α}
    (hz : z ∈ l.drop r) : ∃ j, ∃ hj : j < l.length, r ≤ j ∧ l[j] = z := by
  obtain ⟨j, hj, he⟩ := List.mem_iff_getElem.mp hz
  rw [List.getElem_drop] at he
  have hlen : (l.drop r).length = l.length - r := List.length_drop r l
  refine ⟨r + j, by omega, by omega, he⟩

/-! ## Inserting and removing at the binary-search index of a key-sorted list -/

theorem insert_sorted {α : Type} [Inhabited α] {key : α → String} {l : List α}
    {x : α} (hs : List.Sorted (ltKey key) l)
    (hfresh : ∀ z ∈ l, key z ≠ key x) :
    List.Sorted (ltKey key) (l.insertIdx (sortedIndexBy l x key) x) ∧
    (l.insertIdx (sortedIndexBy l x key) x).Perm (x :: l) := by
  have hsle : List.Sorted (leKey key) l :=
    List.Pairwise.imp (fun h => strLe_of_strLt h) hs
  have hrle : sortedIndexBy l x key ≤ l.length := sortedIndexBy_le_length l x key
  obtain ⟨hlt, hge⟩ := sortedIndexBy_spec x hsle
  constructor
  · rw [insertIdx_eq_take_cons_drop _ _ _ hrle]
    have hpw : List.Pairwise (ltKey key)
        (l.take (sortedIndexBy l x key) ++ l.drop (sortedIndexBy l x key)) := by
      rw [List.take_append_drop]
      exact hs
    obtain ⟨hp1, hp2, hcross⟩ := List.pairwise_append.mp hpw
    apply List.pairwise_append.mpr
    refine ⟨hp1, ?_, ?_⟩
    · apply List.pairwise_cons.mpr
      refine ⟨?_, hp2⟩
      intro z hz
      obtain ⟨j, hj, hjr, hjz⟩ := mem_drop_spec hz
      have h1 : strLt (key l[j]) (key x) = false := hge j hj hjr
      have h2 : key z ≠ key x := hfresh z ((List.drop_sublist _ _).mem hz)
      show strLt (key x) (key z) = true
      cases h' : strLt (key x) (key z) with
      | true => rfl
      | false =>
        rw [hjz] at h1
        exact absurd (str_eq_of_not_lt h1 h') h2
    · intro a ha b hb
      rcases List.mem_cons.mp hb with rfl | hb'
      · obtain ⟨j, hj, hjr, hjz⟩ := mem_take_spec ha
        show strLt (key a) (key b) = true
        rw [← hjz]
        exact hlt j hj hjr
      · exact hcross a ha b hb'
  · exact insertIdx_perm _ _ _ hrle

theorem erase_sorted_mem {α : Type} [Inhabited α] {key : α → String}
    {l : List α} {y : α} (hs : List.Sorted (ltKey key) l) (hy : y ∈ l) :
    l.get? (sortedIndexBy l y key) = some y ∧
    List.Sorted (ltKey key) (l.eraseIdx (sortedIndexBy l y key)) ∧
    l.Perm (y :: l.eraseIdx (sortedIndexBy l y key)) := by
  have hsle : List.Sorted (leKey key) l :=
    List.Pairwise.imp (fun h => strLe_of_strLt h) hs
  obtain ⟨hlt, hge⟩ := sortedIndexBy_spec y hsle
  have hpw := List.pairwise_iff_getElem.mp hs
  obtain ⟨j, hj, hjy⟩ := List.mem_iff_getElem.mp hy
  have hjr : j = sortedIndexBy l y key := by
    rcases lt_trichotomy j (sortedIndexBy l y key) with h' | h' | h'
    · have h1 := hlt j hj h'
      rw [hjy, strLt_irrefl] at h1
      exact absurd h1 (by simp)
    · exact h'
    · exfalso
      have hrlen : sortedIndexBy l y key < l.length := lt_trans h' hj
      have h1 := hge (sortedIndexBy l y key) hrlen (le_refl _)
      have h2 : strLt (key l[sortedIndexBy l y key]) (key l[j]) = true :=
        hpw _ j hrlen hj h'
      rw [hjy] at h2
      rw [h2] at h1
      exact absurd h1 (by simp)
  subst hjr
  refine ⟨?_, ?_, ?_⟩
  · rw [List.get?_eq_get hj]
    exact congrArg some hjy
  · exact List.Pairwise.sublist (List.eraseIdx_sublist l _) hs
  · rw [List.eraseIdx_eq_take_drop_succ]
    conv_lhs => rw [getElem_cons_decomp l (sortedIndexBy l y key) hj]
    rw [hjy]
    exact List.perm_middle

/-! ## JS Map lemmas -/

theorem jsMapGet_some_contains {β : Type} {m : List (String × β)} {k : String}
    {y : β} (h : jsMapGet m k = some y) : jsMapContains m k = true := by
  unfold jsMapGet at h
  cases hf : m.find? (fun e => e.1 == k) with
  | none => rw [hf] at h; simp at h
  | some e =>
    have hp := List.find?_some hf
    apply List.any_eq_true.mpr
    exact ⟨e, List.mem_of_find?_eq_some hf, hp⟩

theorem jsMapGet_some_mem {β : Type} {m : List (String × β)} {k : String}
    {y : β} (h : jsMapGet m k = some y) : (k, y) ∈ m := by
  unfold jsMapGet at h
  cases hf : m.find? (fun e => e.1 == k) with
  | none => rw [hf] at h; simp at h
  | some e =>
    rw [hf] at h
    have hk : e.1 = k := by simpa using List.find?_some hf
    have hy : e.2 = y := by simpa using h
    have : (k, y) = e := by
      rw [← hk, ← hy]
    rw [this]
    exact List.mem_of_find?_eq_some hf

theorem jsMapGet_none_keys {β : Type} {m : List (String × β)} {k : String}
    (h : jsMapGet m k = none) : k ∉ m.map Prod.fst := by
  intro hk
  obtain ⟨e, he, hek⟩ := List.mem_map.mp hk
  unfold jsMapGet at h
  cases hf : m.find? (fun e => e.1 == k) with
  | some e' => rw [hf] at h; simp at h
  | none =>
    have := List.find?_eq_none.mp hf e he
    simp [hek] at this

theorem jsMapSet_of_get_none {β : Type} {m : List (String × β)} {k : String}
    (v : β) (h : jsMapGet m k = none) : jsMapSet m k v = m ++ [(k, v)] := by
  unfold jsMapSet
  rw [if_neg]
  intro hc
  obtain ⟨e, he, hek⟩ := List.any_eq_true.mp hc
  unfold jsMapGet at h
  cases hf : m.find? (fun e => e.1 == k) with
  | some e' => rw [hf] at h; simp at h
  | none =>
    have := List.find?_eq_none.mp hf e he
    exact this hek

theorem mem_jsMapSet {β : Type} {m : List (String × β)} {k : String} {v : β}
    {e : String × β} (h : e ∈ jsMapSet m k v) : e = (k, v) ∨ e ∈ m := by
  unfold jsMapSet at h
  split at h
  · obtain ⟨e', he', hee⟩ := List.mem_map.mp h
    by_cases hk : e'.1 == k
    · rw [if_pos hk] at hee
      exact Or.inl hee.symm
    · rw [if_neg hk] at hee
      exact Or.inr (hee ▸ he')
  · rcases List.mem_append.mp h with h' | h'
    · exact Or.inr h'
    · exact Or.inl (by simpa using h')

theorem mem_jsMapDelete {β : Type} {m : List (String × β)} {k : String}
    {e : String × β} (h : e ∈ jsMapDelete m k) : e ∈ m ∧ e.1 ≠ k := by
  obtain ⟨h₁, h₂⟩ := List.mem_filter.mp h
  exact ⟨h₁, by simpa using h₂⟩

theorem keys_jsMapSet_of_contains {β : Type} {m : List (String × β)}
    {k : String} (v : β) (h : jsMapContains m k = true) :
    (jsMapSet m k v).map Prod.fst = m.map Prod.fst := by
  unfold jsMapSet
  rw [if_pos h, List.map_map]
  apply List.map_congr_left
  intro e _
  by_cases hk : e.1 == k
  · simp only [Function.comp_apply, if_pos hk]
    exact (eq_of_beq hk).symm
  · simp only [Function.comp_apply, if_neg hk]

theorem nodup_keys_jsMapSet {β : Type} {m : List (String × β)} {k : String}
    (v : β) (hnd : (m.map Prod.fst).Nodup) :
    ((jsMapSet m k v).map Prod.fst).Nodup := by
  cases hc : jsMapContains m k with
  | true => rw [keys_jsMapSet_of_contains v hc]; exact hnd
  | false =>
    have hget : jsMapGet m k = none := by
      unfold jsMapGet
      cases hf : m.find? (fun e => e.1 == k) with
      | none => rfl
      | some e =>
        exfalso
        have hp := List.find?_some hf
        have : jsMapContains m k = true := List.any_eq_true.mpr
          ⟨e, List.mem_of_find?_eq_some hf, hp⟩
        rw [this] at hc
        exact absurd hc (by simp)
    rw [jsMapSet_of_get_none v hget, List.map_append]
    apply List.Nodup.append hnd (by simp)
    intro a ha hb
    simp only [List.map_cons, List.map_nil, List.mem_singleton] at hb
    exact absurd (hb ▸ ha) (jsMapGet_none_keys hget)

theorem nodup_keys_jsMapDelete {β : Type} {m : List (String × β)} {k : String}
    (hnd : (m.map Prod.fst).Nodup) :
    ((jsMapDelete m k).map Prod.fst).Nodup :=
  List.Nodup.sublist (List.Sublist.map Prod.fst (List.filter_sublist m)) hnd

theorem jsMapDelete_of_head {β : Type} {m : List (String × β)} {k : String}
    (hk : ∀ e ∈ m, e.1 ≠ k) : jsMapDelete m k = m := by
  apply List.filter_eq_self.mpr
  intro e he
  simpa using hk e he

theorem jsMapValues_delete_perm {β : Type} :
    ∀ {m : List (String × β)} {k : String} {y : β},
      (m.map Prod.fst).Nodup → jsMapGet m k = some y →
      (jsMapValues m).Perm (y :: jsMapValues (jsMapDelete m k)) := by
  intro m
  induction m with
  | nil => intro k y _ hget; simp [jsMapGet] at hget
  | cons e m ih =>
    intro k y hnd hget
    by_cases hk : e.1 == k
    · have hey : e.2 = y := by
        unfold jsMapGet at hget
        simp only [List.find?_cons, hk] at hget
        simpa using hget
      have hrest : ∀ e' ∈ m, e'.1 ≠ k := by
        intro e' he' hek
        have : e.1 ∈ m.map Prod.fst := by
          rw [eq_of_beq hk, ← hek]
          exact List.mem_map_of_mem Prod.fst he'
        exact (List.nodup_cons.mp (by simpa using hnd)).1 this
      have hdel : jsMapDelete (e :: m) k = m := by
        unfold jsMapDelete
        rw [List.filter_cons]
        have : (e.1 != k) = false := by simpa using hk
        rw [if_neg (by simp [this])]
        exact jsMapDelete_of_head hrest
      rw [hdel, ← hey]
      simp [jsMapValues]
    · have hdel : jsMapDelete (e :: m) k = e :: jsMapDelete m k := by
        unfold jsMapDelete
        rw [List.filter_cons, if_pos (by simpa using hk)]
      have hget' : jsMapGet m k = some y := by
        unfold jsMapGet at hget ⊢
        have hkf : (e.1 == k) = false := by simpa using hk
        simp only [List.find?_cons, hkf] at hget
        exact hget
      have hnd' : (m.map Prod.fst).Nodup := (List.nodup_cons.mp (by simpa using hnd)).2
      rw [hdel]
      show (e.2 :: jsMapValues m).Perm (y :: e.2 :: jsMapValues (jsMapDelete m k))
      exact ((ih hnd' hget').cons e.2).trans (List.Perm.swap y e.2 _)

theorem jsMapValues_set_perm {β : Type} :
    ∀ {m : List (String × β)} {k : String} {y : β} (v : β),
      (m.map Prod.fst).Nodup → jsMapGet m k = some y →
      (jsMapValues (jsMapSet m k v)).Perm (v :: jsMapValues (jsMapDelete m k)) := by
  intro m
  induction m with
  | nil => intro k y v _ hget; simp [jsMapGet] at hget
  | cons e m ih =>
    intro k y v hnd hget
    have hcont : jsMapContains (e :: m) k = true := jsMapGet_some_contains hget
    by_cases hk : e.1 == k
    · have hrest : ∀ e' ∈ m, e'.1 ≠ k := by
        intro e' he' hek
        have : e.1 ∈ m.map Prod.fst := by
          rw [eq_of_beq hk, ← hek]
          exact List.mem_map_of_mem Prod.fst he'
        exact (List.nodup_cons.mp (by simpa using hnd)).1 this
      have hdel : jsMapDelete (e :: m) k = m := by
        unfold jsMapDelete
        rw [List.filter_cons]
        have : (e.1 != k) = false := by simpa using hk
        rw [if_neg (by simp [this])]
        exact jsMapDelete_of_head hrest
      have hmap : m.map (fun e => if e.1 == k then (k, v) else e) = m := by
        have h1 : m.map (fun e => if e.1 == k then (k, v) else e) = m.map id :=
          List.map_congr_left (fun e' he' => by
            rw [if_neg (by simpa using hrest e' he')]
            rfl)
        rw [h1, List.map_id]
      unfold jsMapSet
      rw [if_pos hcont]
      simp only [List.map_cons]
      rw [if_pos hk, hmap, hdel]
      show (v :: jsMapValues m).Perm (v :: jsMapValues m)
      exact List.Perm.refl _
    · have hget' : jsMapGet m k = some y := by
        unfold jsMapGet at hget ⊢
        have hkf : (e.1 == k) = false := by simpa using hk
        simp only [List.find?_cons, hkf] at hget
        exact hget
      have hnd' : (m.map Prod.fst).Nodup :=
        (List.nodup_cons.mp (by simpa using hnd)).2
      have hcont' : jsMapContains m k = true := jsMapGet_some_contains hget'
      have hdel : jsMapDelete (e :: m) k = e :: jsMapDelete m k := by
        unfold jsMapDelete
        rw [List.filter_cons, if_pos (by simpa using hk)]
      have hset : jsMapSet (e :: m) k v = e :: jsMapSet m k v := by
        unfold jsMapSet
        rw [if_pos hcont, if_pos hcont']
        simp only [List.map_cons]
        rw [if_neg hk]
      rw [hset, hdel]
      show (e.2 :: jsMapValues (jsMapSet m k v)).Perm
        (v :: e.2 :: jsMapValues (jsMapDelete m k))
      exact ((ih v hnd' hget').cons e.2).trans (List.Perm.swap v e.2 _)

theorem jsMapGet_set_self {β : Type} (m : List (String × β)) (k : String)
    (v : β) : jsMapGet (jsMapSet m k v) k = some v := by
  induction m with
  | nil =>
    simp [jsMapSet, jsMapContains, jsMapGet]
  | cons e m ih =>
    by_cases hk : e.1 == k
    · have hc : jsMapContains (e :: m) k = true :=
        List.any_eq_true.mpr ⟨e, by simp, hk⟩
      unfold jsMapSet
      rw [if_pos hc]
      simp only [List.map_cons, if_pos hk]
      unfold jsMapGet
      simp [List.find?_cons]
    · have hkf : (e.1 == k) = false := by simpa using hk
      have hset : jsMapSet (e :: m) k v = e :: jsMapSet m k v := by
        unfold jsMapSet jsMapContains
        simp only [List.any_cons, hkf, Bool.false_or]
        by_cases hc : m.any (fun e => e.1 == k)
        · rw [if_pos hc, if_pos hc]
          simp only [List.map_cons]
          rw [if_neg hk]
        · rw [if_neg hc, if_neg hc]
          simp
      rw [hset]
      unfold jsMapGet at ih ⊢
      simp only [List.find?_cons, hkf]
      exact ih

/-! ## Frame lemmas of the transaction -/

theorem applyReadOps_clean (db : DB) (ops : List ReadOp) :
    ∀ tx : ReplicacheTransaction, (∀ e ∈ tx.cache, e.2.2 = false) →
      ∀ e ∈ (applyReadOps db tx ops).cache, e.2.2 = false := by
  induction ops with
  | nil => intro tx h e he; exact h e he
  | cons op ops ih =>
    intro tx h
    have hstep : ∀ e ∈ (applyReadOp db tx op).cache, e.2.2 = false := by
      have hget : ∀ k, ∀ e ∈ (tx.get db k).2.cache, e.2.2 = false := by
        intro k e he
        unfold ReplicacheTransaction.get at he
        cases hg : jsMapGet tx.cache k with
        | some entry => rw [hg] at he; exact h e he
        | none =>
          rw [hg] at he
          simp only at he
          rcases mem_jsMapSet he with rfl | he'
          · rfl
          · exact h _ he'
      cases op with
      | get k => exact hget k
      | has k => exact hget k
    exact ih _ hstep

theorem flush_of_clean (tx : ReplicacheTransaction) (db : DB)
    (h : ∀ e ∈ tx.cache, e.2.2 = false) : tx.flush db = db := by
  unfold ReplicacheTransaction.flush
  have hd : tx.cache.filter (fun e => e.2.2) = [] := by
    apply List.filter_eq_nil_iff.mpr
    intro e he
    simp [h e he]
  rw [hd]
  simp [putEntries, delEntries]

/-! ## initSpace lemmas -/

theorem initSpace_of_exists {db : DB} {spaceID : String}
    (sampleIssues : List Issue)
    (h : db.spaces.any (fun e => e.1 == spaceID) = true) :
    initSpace db spaceID sampleIssues = db := by
  unfold initSpace
  rw [if_pos h]

theorem initSpace_space_mem (db : DB) (spaceID : String)
    (sampleIssues : List Issue) :
    ((initSpace db spaceID sampleIssues).spaces.any
      (fun e => e.1 == spaceID)) = true := by
  unfold initSpace
  by_cases h : db.spaces.any (fun e => e.1 == spaceID)
  · rw [if_pos h]
    exact h
  · rw [if_neg h]
    simp [List.any_append]

/-! ## Claim theorems: the easy frame and idempotence claims -/

/-- C8: a setIssueOrder action re-sorts the existing filtered list by the new
order key (hence the result is a permutation of the previous list, sorted by
the new key) and leaves the issue map, the view count and the filters
unchanged. -/
theorem c8_set_issue_order_resorts (s : State) (o : IssueOrder) :
    (reducer s (.setIssueOrder o)).filteredIssues =
      sortBy (orderKey o) s.filteredIssues ∧
    ((reducer s (.setIssueOrder o)).filteredIssues).Perm s.filteredIssues ∧
    List.Sorted (leKey (orderKey o))
      (reducer s (.setIssueOrder o)).filteredIssues ∧
    (reducer s (.setIssueOrder o)).allIssuesMap = s.allIssuesMap ∧
    (reducer s (.setIssueOrder o)).viewIssueCount = s.viewIssueCount ∧
    (reducer s (.setIssueOrder o)).filters = s.filters :=
  ⟨rfl, sortBy_perm _ _, sortBy_sorted _ _, rfl, rfl, rfl⟩

/-- C9: del returns exactly whether a get issued just before it would have
seen a value (overlay first, then store), and afterwards the overlay entry of
the key is dirty with an absent value, so that get and has on the resulting
transaction state return none and false. -/
theorem c9_del_semantics (tx : ReplicacheTransaction) (db : DB) (key : String) :
    (tx.del db key).1 = (tx.get db key).1.isSome ∧
    jsMapGet (tx.del db key).2.cache key = some (none, true) ∧
    ((tx.del db key).2.get db key).1 = none ∧
    ((tx.del db key).2.has db key).1 = false := by
  have hcache : (tx.del db key).2.cache =
      jsMapSet (tx.has db key).2.cache key (none, true) := rfl
  refine ⟨rfl, jsMapGet_set_self _ _ _, ?_, ?_⟩
  · unfold ReplicacheTransaction.get
    rw [hcache, jsMapGet_set_self]
  · unfold ReplicacheTransaction.has ReplicacheTransaction.get
    rw [hcache, jsMapGet_set_self]
    rfl

/-- C10: a transaction that performs only reads (get / has) leaves its cache
entirely clean, so its flush finds no dirty entries and both batched writes
take their empty-input early return: the store is unchanged. -/
theorem c10_read_only_flush_frame (db : DB) (spaceID clientID : String)
    (version : Nat) (ops : List ReadOp) :
    (applyReadOps db ⟨spaceID, clientID, version, []⟩ ops).flush db = db :=
  flush_of_clean _ db
    (applyReadOps_clean db ops _ (by intro e he; simp at he))

/-- C5: space initialization is idempotent: the first run inserts the space
row, so the second run takes the existence-gated early return and the state
is identical to the state after one run (in particular there is no second
copy of the seed entries). -/
theorem c5_init_space_idempotent (db : DB) (spaceID : String)
    (sampleIssues : List Issue) :
    initSpace (initSpace db spaceID sampleIssues) spaceID sampleIssues =
      initSpace db spaceID sampleIssues :=
  initSpace_of_exists sampleIssues (initSpace_space_mem db spaceID sampleIssues)

/-! ## Row lookup through the batched writes -/

theorem find?_map_update {l : List EntryRow} {f : EntryRow → EntryRow}
    {q : EntryRow → Bool} (hq : ∀ e, q (f e) = q e) :
    (l.map f).find? q = (l.find? q).map f := by
  induction l with
  | nil => rfl
  | cons e l ih =>
    rw [List.map_cons]
    cases he : q e with
    | true =>
      rw [List.find?_cons_of_pos _ (by rw [hq]; exact he),
        List.find?_cons_of_pos _ he]
      rfl
    | false =>
      rw [List.find?_cons_of_neg _ (by rw [hq, he]; simp),
        List.find?_cons_of_neg _ (by rw [he]; simp)]
      exact ih

theorem rowLookup_found_fields {db : DB} {s k : String} {r : EntryRow}
    (h : rowLookup db s k = some r) : r.spaceid = s ∧ r.key = k ∧ r ∈ db.entries := by
  have hp := List.find?_some h
  have hm := List.mem_of_find?_eq_some h
  simp only [Bool.and_eq_true, beq_iff_eq] at hp
  exact ⟨hp.1, hp.2, hm⟩

theorem rowLookup_delEntries_mem {db : DB} {s : String} {ks : List String}
    {ver : Nat} {k : String} (hk : ks.contains k = true) :
    rowLookup (delEntries db s ks ver) s k =
      (rowLookup db s k).map (fun r => { r with deleted := true, version := ver }) := by
  unfold delEntries
  by_cases hemp : ks.isEmpty
  · rw [if_pos hemp]
    cases ks with
    | nil => simp at hk
    | cons a l => simp [List.isEmpty] at hemp
  · rw [if_neg hemp]
    unfold rowLookup
    rw [find?_map_update (fun e => by
      by_cases h : e.spaceid == s && ks.contains e.key
      · rw [if_pos h]
      · rw [if_neg h])]
    cases hf : (db.entries.find? (fun e => e.spaceid == s && e.key == k)) with
    | none => rfl
    | some r =>
      have hp := List.find?_some hf
      simp only [Bool.and_eq_true, beq_iff_eq] at hp
      simp only [Option.map]
      rw [if_pos (by
        rw [hp.1, hp.2]
        simp only [beq_self_eq_true, Bool.true_and]
        exact hk)]

theorem rowLookup_delEntries_not_mem {db : DB} {s : String} {ks : List String}
    {ver : Nat} {k : String} (hk : ks.contains k = false) :
    rowLookup (delEntries db s ks ver) s k = rowLookup db s k := by
  unfold delEntries
  by_cases hemp : ks.isEmpty
  · rw [if_pos hemp]
  · rw [if_neg hemp]
    unfold rowLookup
    rw [find?_map_update (fun e => by
      by_cases h : e.spaceid == s && ks.contains e.key
      · rw [if_pos h]
      · rw [if_neg h])]
    cases hf : (db.entries.find? (fun e => e.spaceid == s && e.key == k)) with
    | none => rfl
    | some r =>
      have hp := List.find?_some hf
      simp only [Bool.and_eq_true, beq_iff_eq] at hp
      simp only [Option.map]
      rw [if_neg (by
        intro hcond
        rw [Bool.and_eq_true, hp.2, hk] at hcond
        exact absurd hcond.2 (by simp))]

theorem rowLookup_upsert_self (db : DB) (s k : String) (v : Value) (ver : Nat) :
    rowLookup (upsertEntry db s k v ver) s k = some ⟨s, k, v, false, ver⟩ := by
  unfold upsertEntry
  by_cases h : db.entries.any (fun e => e.spaceid == s && e.key == k)
  · rw [if_pos h]
    unfold rowLookup
    rw [find?_map_update (fun e => by
      by_cases h' : e.spaceid == s && e.key == k
      · rw [if_pos h']
      · rw [if_neg h'])]
    obtain ⟨e, he, hpe⟩ := List.any_eq_true.mp h
    cases hf : (db.entries.find? (fun e => e.spaceid == s && e.key == k)) with
    | none =>
      exact absurd (List.find?_eq_none.mp hf e he hpe) (by simp)
    | some r =>
      have hp := List.find?_some hf
      simp only [Option.map]
      rw [if_pos hp]
      simp only [Bool.and_eq_true, beq_iff_eq] at hp
      cases r
      simp_all
  · rw [if_neg h]
    unfold rowLookup
    simp only
    rw [List.find?_append]
    have hnone : db.entries.find? (fun e => e.spaceid == s && e.key == k) = none := by
      apply List.find?_eq_none.mpr
      intro e he hpe
      exact h (List.any_eq_true.mpr ⟨e, he, hpe⟩)
    rw [hnone]
    simp [List.find?_cons]

theorem rowLookup_upsert_other (db : DB) (s k : String) (v : Value) (ver : Nat)
    {k' : String} (hk : k' ≠ k) :
    rowLookup (upsertEntry db s k v ver) s k' = rowLookup db s k' := by
  unfold upsertEntry
  by_cases h : db.entries.any (fun e => e.spaceid == s && e.key == k)
  · rw [if_pos h]
    unfold rowLookup
    rw [find?_map_update (fun e => by
      by_cases h' : e.spaceid == s && e.key == k
      · rw [if_pos h']
      · rw [if_neg h'])]
    cases hf : (db.entries.find? (fun e => e.spaceid == s && e.key == k')) with
    | none => rfl
    | some r =>
      have hp := List.find?_some hf
      simp only [Bool.and_eq_true, beq_iff_eq] at hp
      simp only [Option.map]
      rw [if_neg (by
        intro hcond
        rw [Bool.and_eq_true, hp.2] at hcond
        exact hk (by simpa using hcond.2))]
  · rw [if_neg h]
    unfold rowLookup
    simp only
    rw [List.find?_append]
    cases hf : (db.entries.find? (fun e => e.spaceid == s && e.key == k')) with
    | none =>
      simp only [Option.none_or]
      rw [List.find?_cons_of_neg _ (by simp [Ne.symm hk])]
      rfl
    | some r => rfl

theorem putEntriesFold_lookup_not_mem {s : String} {ver : Nat} :
    ∀ (entries : List (String × Value)) (db : DB) {k : String},
      k ∉ entries.map Prod.fst →
      rowLookup (entries.foldl (fun db kv => upsertEntry db s kv.1 kv.2 ver) db) s k =
        rowLookup db s k := by
  intro entries
  induction entries with
  | nil => intro db k _; rfl
  | cons e entries ih =>
    intro db k hk
    rw [List.foldl_cons]
    rw [ih _ (fun hmem => hk (List.mem_cons_of_mem _ hmem))]
    exact rowLookup_upsert_other db s e.1 e.2 ver
      (fun he => hk (by rw [he]; exact List.mem_cons_self _ _))

theorem putEntriesFold_lookup_mem {s : String} {ver : Nat} :
    ∀ (entries : List (String × Value)) (db : DB) {k : String} {v : Value},
      (entries.map Prod.fst).Nodup → (k, v) ∈ entries →
      rowLookup (entries.foldl (fun db kv => upsertEntry db s kv.1 kv.2 ver) db) s k =
        some ⟨s, k, v, false, ver⟩ := by
  intro entries
  induction entries with
  | nil => intro db k v _ hm; simp at hm
  | cons e entries ih =>
    intro db k v hnd hm
    rw [List.foldl_cons]
    rcases List.mem_cons.mp hm with rfl | hm'
    · rw [putEntriesFold_lookup_not_mem entries _ (by
        intro hk
        exact (List.nodup_cons.mp hnd).1 hk)]
      exact rowLookup_upsert_self db s k v ver
    · exact ih _ (List.nodup_cons.mp hnd).2 hm'

theorem putEntries_lookup_mem {db : DB} {s : String}
    {entries : List (String × Value)} {ver : Nat} {k : String} {v : Value}
    (hnd : (entries.map Prod.fst).Nodup) (hm : (k, v) ∈ entries) :
    rowLookup (putEntries db s entries ver) s k = some ⟨s, k, v, false, ver⟩ := by
  unfold putEntries
  rw [if_neg (by
    intro hemp
    rw [List.isEmpty_iff.mp hemp] at hm
    simp at hm)]
  exact putEntriesFold_lookup_mem entries db hnd hm

theorem putEntries_lookup_not_mem {db : DB} {s : String}
    {entries : List (String × Value)} {ver : Nat} {k : String}
    (hk : k ∉ entries.map Prod.fst) :
    rowLookup (putEntries db s entries ver) s k = rowLookup db s k := by
  unfold putEntries
  by_cases hemp : entries.isEmpty
  · rw [if_pos hemp]
  · rw [if_neg hemp]
    exact putEntriesFold_lookup_not_mem entries db hk

/-! ## From the overlay to the batched writes -/

theorem flush_eq (tx : ReplicacheTransaction) (db : DB) :
    tx.flush db =
      putEntries (delEntries db tx.spaceID (flushDels tx.cache) tx.version)
        tx.spaceID (flushPuts tx.cache) tx.version := rfl

theorem mem_flushPuts_of_get {c : TxCache} {k : String} {v : Value}
    (h : jsMapGet c k = some (some v, true)) : (k, v) ∈ flushPuts c := by
  apply List.mem_filterMap.mpr
  refine ⟨(k, (some v, true)), ?_, rfl⟩
  exact List.mem_filter.mpr ⟨jsMapGet_some_mem h, rfl⟩

theorem flushPuts_key_mem {c : TxCache} {k : String}
    (h : k ∈ (flushPuts c).map Prod.fst) :
    ∃ v, (k, (some v, true)) ∈ c := by
  obtain ⟨p, hp, hpk⟩ := List.mem_map.mp h
  obtain ⟨e, he, hfe⟩ := List.mem_filterMap.mp hp
  obtain ⟨hec, hed⟩ := List.mem_filter.mp he
  cases hv : e.2.1 with
  | none => rw [hv] at hfe; simp at hfe
  | some v =>
    rw [hv] at hfe
    simp only [Option.some.injEq] at hfe
    refine ⟨v, ?_⟩
    have he1 : e.1 = k := by rw [← hpk, ← hfe]
    have he22 : e.2.2 = true := by simpa using hed
    have : e = (k, (some v, true)) := by
      rcases e with ⟨e1, e21, e22⟩
      simp only at hv he1 he22
      rw [he1, hv, he22]
    exact this ▸ hec

theorem flushDels_key_mem {c : TxCache} {k : String}
    (h : k ∈ flushDels c) : (k, (none, true)) ∈ c := by
  obtain ⟨e, he, hek⟩ := List.mem_map.mp h
  obtain ⟨he', hnone⟩ := List.mem_filter.mp he
  obtain ⟨hec, hed⟩ := List.mem_filter.mp he'
  have he21 : e.2.1 = none := by
    cases hv : e.2.1 with
    | none => rfl
    | some v => rw [hv] at hnone; simp at hnone
  have he22 : e.2.2 = true := by simpa using hed
  have : e = (k, (none, true)) := by
    rcases e with ⟨e1, e21, e22⟩
    simp only at he21 hek he22
    rw [hek, he21, he22]
  exact this ▸ hec

theorem mem_flushDels_of_get {c : TxCache} {k : String}
    (h : jsMapGet c k = some (none, true)) : k ∈ flushDels c := by
  apply List.mem_map.mpr
  refine ⟨(k, (none, true)), ?_, rfl⟩
  apply List.mem_filter.mpr
  refine ⟨List.mem_filter.mpr ⟨jsMapGet_some_mem h, rfl⟩, rfl⟩

theorem cache_entry_unique {c : TxCache} (hnd : (c.map Prod.fst).Nodup)
    {e₁ e₂ : String × (Option Value × Bool)} (h₁ : e₁ ∈ c) (h₂ : e₂ ∈ c)
    (hk : e₁.1 = e₂.1) : e₁ = e₂ :=
  List.inj_on_of_nodup_map hnd h₁ h₂ hk

theorem flushPuts_keys_nodup {c : TxCache} (hnd : (c.map Prod.fst).Nodup) :
    ((flushPuts c).map Prod.fst).Nodup := by
  have hsub : ((flushPuts c).map Prod.fst).Sublist
      ((c.filter (fun e => e.2.2)).map Prod.fst) := by
    unfold flushPuts
    generalize c.filter (fun e => e.2.2) = l
    induction l with
    | nil => simp
    | cons e l ih =>
      rw [List.filterMap_cons]
      cases hv : e.2.1 with
      | none => exact (List.map_cons _ _ _ ▸ ih.cons e.1 : _)
      | some v =>
        rw [List.map_cons, List.map_cons]
        exact ih.cons₂ e.1
  exact List.Nodup.sublist hsub
    (List.Nodup.sublist (List.Sublist.map Prod.fst (List.filter_sublist c)) hnd)

/-! ## Cache key uniqueness through transaction operations -/

theorem nodup_keys_get (tx : ReplicacheTransaction) (db : DB) (k : String)
    (hnd : (tx.cache.map Prod.fst).Nodup) :
    (((tx.get db k).2.cache).map Prod.fst).Nodup := by
  unfold ReplicacheTransaction.get
  cases hg : jsMapGet tx.cache k with
  | some entry => exact hnd
  | none => exact nodup_keys_jsMapSet _ hnd

theorem nodup_keys_applyTxOps (db : DB) (ops : List TxOp) :
    ∀ tx : ReplicacheTransaction, (tx.cache.map Prod.fst).Nodup →
      (((applyTxOps db tx ops).cache).map Prod.fst).Nodup := by
  induction ops with
  | nil => intro tx h; exact h
  | cons op ops ih =>
    intro tx h
    apply ih
    cases op with
    | put k v => exact nodup_keys_jsMapSet _ h
    | del k =>
      show ((jsMapSet (tx.has db k).2.cache k (none, true)).map Prod.fst).Nodup
      exact nodup_keys_jsMapSet _ (nodup_keys_get tx db k h)

theorem get_fields (tx : ReplicacheTransaction) (db : DB) (k : String) :
    (tx.get db k).2.spaceID = tx.spaceID ∧ (tx.get db k).2.version = tx.version := by
  unfold ReplicacheTransaction.get
  cases jsMapGet tx.cache k with
  | some entry => exact ⟨rfl, rfl⟩
  | none => exact ⟨rfl, rfl⟩

theorem applyTxOps_fields (db : DB) (ops : List TxOp) :
    ∀ tx : ReplicacheTransaction,
      (applyTxOps db tx ops).spaceID = tx.spaceID ∧
      (applyTxOps db tx ops).version = tx.version := by
  induction ops with
  | nil => intro tx; exact ⟨rfl, rfl⟩
  | cons op ops ih =>
    intro tx
    have hstep : (applyTxOp db tx op).spaceID = tx.spaceID ∧
        (applyTxOp db tx op).version = tx.version := by
      cases op with
      | put k v => exact ⟨rfl, rfl⟩
      | del k =>
        show (tx.get db k).2.spaceID = tx.spaceID ∧
          (tx.get db k).2.version = tx.version
        exact get_fields tx db k
    obtain ⟨h1, h2⟩ := ih (applyTxOp db tx op)
    exact ⟨h1.trans hstep.1, h2.trans hstep.2⟩

/-! ## Last-writer-wins through the flush -/

theorem flush_lookup (tx : ReplicacheTransaction) (db : DB)
    (hnd : (tx.cache.map Prod.fst).Nodup) :
    (∀ k v, jsMapGet tx.cache k = some (some v, true) →
      rowLookup (tx.flush db) tx.spaceID k =
        some ⟨tx.spaceID, k, v, false, tx.version⟩) ∧
    (∀ k, jsMapGet tx.cache k = some (none, true) →
      rowLookup (tx.flush db) tx.spaceID k =
        (rowLookup db tx.spaceID k).map
          (fun r => { r with deleted := true, version := tx.version })) ∧
    (∀ k, jsMapGet tx.cache k = none →
      rowLookup (tx.flush db) tx.spaceID k = rowLookup db tx.spaceID k) := by
  rw [flush_eq]
  refine ⟨?_, ?_, ?_⟩
  · intro k v h
    exact putEntries_lookup_mem (flushPuts_keys_nodup hnd) (mem_flushPuts_of_get h)
  · intro k h
    have hkd : k ∈ flushDels tx.cache := mem_flushDels_of_get h
    have hkp : k ∉ (flushPuts tx.cache).map Prod.fst := by
      intro hk
      obtain ⟨v, hv⟩ := flushPuts_key_mem hk
      have := cache_entry_unique hnd hv (jsMapGet_some_mem h) rfl
      simp at this
    rw [putEntries_lookup_not_mem hkp]
    exact rowLookup_delEntries_mem (by simpa using hkd)
  · intro k h
    have hkeys := jsMapGet_none_keys h
    have hkp : k ∉ (flushPuts tx.cache).map Prod.fst := by
      intro hk
      obtain ⟨v, hv⟩ := flushPuts_key_mem hk
      exact hkeys (List.mem_map.mpr ⟨(k, (some v, true)), hv, rfl⟩)
    have hkd : (flushDels tx.cache).contains k = false := by
      cases hc : (flushDels tx.cache).contains k with
      | false => rfl
      | true =>
        exfalso
        have : k ∈ flushDels tx.cache := by simpa using hc
        exact hkeys (List.mem_map.mpr ⟨(k, (none, true)), flushDels_key_mem this, rfl⟩)
    rw [putEntries_lookup_not_mem hkp]
    exact rowLookup_delEntries_not_mem hkd

/-- C4: after any sequence of puts and deletes on one transaction followed by
a single flush, the store reflects last-writer-wins per key: a key whose
final overlay value is present is upserted with that value, not deleted and
stamped with the transaction's version; a key whose final overlay value is
absent has its stored row (when one exists) soft-deleted with that version;
a key the transaction never wrote is unchanged. -/
theorem c4_flush_last_writer_wins (db : DB) (spaceID clientID : String)
    (version : Nat) (ops : List TxOp) :
    (∀ k v, jsMapGet (applyTxOps db ⟨spaceID, clientID, version, []⟩ ops).cache k =
        some (some v, true) →
      rowLookup ((applyTxOps db ⟨spaceID, clientID, version, []⟩ ops).flush db)
        spaceID k = some ⟨spaceID, k, v, false, version⟩) ∧
    (∀ k, jsMapGet (applyTxOps db ⟨spaceID, clientID, version, []⟩ ops).cache k =
        some (none, true) →
      rowLookup ((applyTxOps db ⟨spaceID, clientID, version, []⟩ ops).flush db)
        spaceID k =
        (rowLookup db spaceID k).map
          (fun r => { r with deleted := true, version := version })) ∧
    (∀ k, jsMapGet (applyTxOps db ⟨spaceID, clientID, version, []⟩ ops).cache k =
        none →
      rowLookup ((applyTxOps db ⟨spaceID, clientID, version, []⟩ ops).flush db)
        spaceID k = rowLookup db spaceID k) := by
  have hf := applyTxOps_fields db ops ⟨spaceID, clientID, version, []⟩
  have h := flush_lookup (applyTxOps db ⟨spaceID, clientID, version, []⟩ ops) db
    (nodup_keys_applyTxOps db ops _ (by simp))
  rw [hf.1, hf.2] at h
  exact h

/-! ## Frame lemmas of the store writes on the space table -/

theorem upsertEntry_spaces (db : DB) (s k : String) (v : Value) (ver : Nat) :
    (upsertEntry db s k v ver).spaces = db.spaces := by
  unfold upsertEntry
  split <;> rfl

theorem putEntries_spaces (db : DB) (s : String)
    (entries : List (String × Value)) (ver : Nat) :
    (putEntries db s entries ver).spaces = db.spaces := by
  unfold putEntries
  split
  · rfl
  · clear * -
    induction entries generalizing db with
    | nil => rfl
    | cons e entries ih =>
      rw [List.foldl_cons, ih, upsertEntry_spaces]

theorem delEntries_spaces (db : DB) (s : String) (ks : List String)
    (ver : Nat) : (delEntries db s ks ver).spaces = db.spaces := by
  unfold delEntries
  split <;> rfl

theorem flush_spaces (tx : ReplicacheTransaction) (db : DB) :
    (tx.flush db).spaces = db.spaces := by
  rw [flush_eq, putEntries_spaces, delEntries_spaces]

theorem initSpace_version_fresh {db : DB} {spaceID : String}
    (sampleIssues : List Issue)
    (hfresh : db.spaces.any (fun e => e.1 == spaceID) = false) :
    getVersion (initSpace db spaceID sampleIssues) spaceID = some 1 := by
  unfold initSpace
  rw [if_neg (by simp [hfresh])]
  have hnone : db.spaces.find? (fun e => e.1 == spaceID) = none := by
    apply List.find?_eq_none.mpr
    intro e he hp
    have : db.spaces.any (fun e => e.1 == spaceID) = true :=
      List.any_eq_true.mpr ⟨e, he, hp⟩
    rw [this] at hfresh
    exact absurd hfresh (by simp)
  by_cases hs : db.spaces.any (fun e => e.1 == sampleSpaceID) = true
  · rw [if_pos hs]
    unfold getVersion
    simp only
    rw [List.find?_append, hnone]
    simp [initialVersion]
  · rw [if_neg hs]
    unfold getVersion
    simp only
    rw [flush_spaces]
    simp only
    rw [List.find?_append, List.find?_append, hnone]
    simp only [Option.none_or]
    cases hss : (sampleSpaceID == spaceID) with
    | true =>
      rw [List.find?_cons_of_pos _ (by simpa using hss)]
      simp [initialVersion]
    | false =>
      rw [List.find?_cons_of_neg _ (by simp [hss])]
      rw [List.find?_cons_of_pos _ (by simp)]
      simp [initialVersion]

/-! ## Claim theorems about the pull reconciler -/

/-- C7: when a key of an existing space carries a tombstone written at some
version, a pull whose cursor version is strictly below it (with no endKey)
returns a del patch op for that key; and the soft-delete write never removes
rows: delEntries preserves the (spaceid, key) family of the entry table. -/
theorem c7_delete_visible_in_pull (db : DB) (spaceID clientID : String)
    (sampleIssues : List Issue) (prevVersion : Nat) (row : EntryRow)
    (hrow : rowLookup db spaceID row.key = some row)
    (hdel : row.deleted = true) (hver : prevVersion < row.version)
    (hspace : db.spaces.any (fun e => e.1 == spaceID) = true) :
    PatchOp.del row.key ∈
      (pull db spaceID clientID (some ⟨prevVersion, none⟩) sampleIssues).patch ∧
    ∀ (db' : DB) (s : String) (ks : List String) (ver : Nat),
      (delEntries db' s ks ver).entries.map (fun e => (e.spaceid, e.key)) =
        db'.entries.map (fun e => (e.spaceid, e.key)) := by
  constructor
  · have hinit : initSpace db spaceID sampleIssues = db :=
      initSpace_of_exists sampleIssues hspace
    obtain ⟨hsp, hkey, hmem⟩ := rowLookup_found_fields hrow
    simp only [pull, hinit]
    apply List.mem_map.mpr
    refine ⟨(row.key, row.value, row.deleted), ?_, ?_⟩
    · unfold getChangedEntries
      apply List.mem_map.mpr
      refine ⟨row, ?_, rfl⟩
      apply List.mem_filter.mpr
      refine ⟨hmem, ?_⟩
      rw [hsp]
      simp [hver]
    · unfold toPatchOp
      rw [hdel]
      rfl
  · intro db' s ks ver
    unfold delEntries
    split
    · rfl
    · simp only [List.map_map]
      apply List.map_congr_left
      intro e _
      by_cases h : e.spaceid == s && ks.contains e.key
      · rw [Function.comp_apply, if_pos h]
      · rw [Function.comp_apply, if_neg h]

/-- C6: a pull with a null cookie against a fresh space returns a patch whose
ops are all puts of metadata-subset keys (no deletes, no control entries) and
the cookie (version 1, the current space version after initialization, with
endKey the empty string). -/
theorem c6_null_cookie_metadata (db : DB) (spaceID clientID : String)
    (sampleIssues : List Issue)
    (hfresh : db.spaces.any (fun e => e.1 == spaceID) = false) :
    (∀ op ∈ (pull db spaceID clientID none sampleIssues).patch,
      ∃ k v, op = PatchOp.put k v ∧ isIssueMetaKey k = true) ∧
    (pull db spaceID clientID none sampleIssues).cookie = ⟨1, some ""⟩ ∧
    getVersion (initSpace db spaceID sampleIssues) spaceID = some 1 := by
  have hver := initSpace_version_fresh sampleIssues hfresh
  refine ⟨?_, ?_, hver⟩
  · intro op hop
    simp only [pull] at hop
    obtain ⟨e, he, heq⟩ := List.mem_map.mp hop
    obtain ⟨r, hr, hre⟩ := List.mem_map.mp he
    obtain ⟨-, hpred⟩ := List.mem_filter.mp hr
    simp only [Bool.and_eq_true] at hpred
    refine ⟨e.1, e.2, ?_, ?_⟩
    · rw [← heq]
      rfl
    · rw [← hre]
      exact hpred.2
  · show (⟨(getVersion (initSpace db spaceID sampleIssues) spaceID).getD 0,
      some ""⟩ : Cookie) = ⟨1, some ""⟩
    rw [hver]
    rfl

/-- C1 (amended): for a pull whose cursor carries an endKey, the response
cookie drops the endKey exactly when the key-paginated query returns fewer
than 3000 rows and otherwise carries the last key of the page; and in both
cases (not only in the full-page case) a control/partialSync entry carrying
that same endKey is appended to the patch. -/
theorem c1_partial_sync_paging (db : DB) (spaceID clientID : String)
    (sampleIssues : List Issue) (prevVersion : Nat) (endKey : String) :
    ((getNonIssueMetaEntries (initSpace db spaceID sampleIssues) spaceID
        endKey 3000).length < 3000 →
      (pull db spaceID clientID (some ⟨prevVersion, some endKey⟩)
          sampleIssues).cookie.endKey = none ∧
      PatchOp.put "control/partialSync" (Value.syncControl none) ∈
        (pull db spaceID clientID (some ⟨prevVersion, some endKey⟩)
          sampleIssues).patch) ∧
    (3000 ≤ (getNonIssueMetaEntries (initSpace db spaceID sampleIssues) spaceID
        endKey 3000).length →
      (pull db spaceID clientID (some ⟨prevVersion, some endKey⟩)
          sampleIssues).cookie.endKey =
        (getNonIssueMetaEntries (initSpace db spaceID sampleIssues) spaceID
          endKey 3000).getLast?.map Prod.fst ∧
      PatchOp.put "control/partialSync"
          (Value.syncControl
            ((getNonIssueMetaEntries (initSpace db spaceID sampleIssues) spaceID
              endKey 3000).getLast?.map Prod.fst)) ∈
        (pull db spaceID clientID (some ⟨prevVersion, some endKey⟩)
          sampleIssues).patch) := by
  constructor
  · intro h
    constructor
    · simp only [pull]
      rw [if_pos h]
    · simp only [pull]
      rw [if_pos h]
      apply List.mem_map.mpr
      refine ⟨("control/partialSync", Value.syncControl none, false), ?_, rfl⟩
      simp
  · intro h
    have h' : ¬ (getNonIssueMetaEntries (initSpace db spaceID sampleIssues)
        spaceID endKey 3000).length < 3000 := by omega
    constructor
    · simp only [pull]
      rw [if_neg h']
    · simp only [pull]
      rw [if_neg h']
      apply List.mem_map.mpr
      refine ⟨("control/partialSync",
        Value.syncControl ((getNonIssueMetaEntries
          (initSpace db spaceID sampleIssues) spaceID endKey
          3000).getLast?.map Prod.fst), false), ?_, rfl⟩
      simp

/-- C1 counterexample: on a small store the key-paginated query returns fewer
than 3000 rows (the page is not full), yet the control/partialSync entry is
still appended to the patch — refuting the claim that the control entry is
appended only in the full-page case. -/
theorem c1_control_always_appended :
    (getNonIssueMetaEntries (initSpace ⟨[("s1", 1)], [], []⟩ "s1" []) "s1" ""
      3000).length < 3000 ∧
    PatchOp.put "control/partialSync" (Value.syncControl none) ∈
      (pull ⟨[("s1", 1)], [], []⟩ "s1" "c1" (some ⟨0, some ""⟩) []).patch := by
  decide

theorem c1_partial_sync_paging_witness :
    (pull ⟨[("s1", 1)], [], []⟩ "s1" "c1" (some ⟨0, some ""⟩) []).cookie.endKey =
      none ∧
    PatchOp.put "control/partialSync" (Value.syncControl none) ∈
      (pull ⟨[("s1", 1)], [], []⟩ "s1" "c1" (some ⟨0, some ""⟩) []).patch :=
  (c1_partial_sync_paging ⟨[("s1", 1)], [], []⟩ "s1" "c1" [] 0 "").1 (by decide)

theorem c4_flush_last_writer_wins_witness :
    rowLookup ((applyTxOps ⟨[("s1", 1)], [], [⟨"s1", "b", Value.raw "x", false, 1⟩]⟩
        ⟨"s1", "c1", 7, []⟩
        [TxOp.put "a" (Value.raw "1"), TxOp.del "b", TxOp.put "a" (Value.raw "2")]).flush
        ⟨[("s1", 1)], [], [⟨"s1", "b", Value.raw "x", false, 1⟩]⟩) "s1" "a" =
      some ⟨"s1", "a", Value.raw "2", false, 7⟩ ∧
    rowLookup ((applyTxOps ⟨[("s1", 1)], [], [⟨"s1", "b", Value.raw "x", false, 1⟩]⟩
        ⟨"s1", "c1", 7, []⟩
        [TxOp.put "a" (Value.raw "1"), TxOp.del "b", TxOp.put "a" (Value.raw "2")]).flush
        ⟨[("s1", 1)], [], [⟨"s1", "b", Value.raw "x", false, 1⟩]⟩) "s1" "b" =
      (rowLookup ⟨[("s1", 1)], [], [⟨"s1", "b", Value.raw "x", false, 1⟩]⟩ "s1" "b").map
        (fun r => { r with deleted := true, version := 7 }) ∧
    rowLookup ((applyTxOps ⟨[("s1", 1)], [], [⟨"s1", "b", Value.raw "x", false, 1⟩]⟩
        ⟨"s1", "c1", 7, []⟩
        [TxOp.put "a" (Value.raw "1"), TxOp.del "b", TxOp.put "a" (Value.raw "2")]).flush
        ⟨[("s1", 1)], [], [⟨"s1", "b", Value.raw "x", false, 1⟩]⟩) "s1" "c" =
      rowLookup ⟨[("s1", 1)], [], [⟨"s1", "b", Value.raw "x", false, 1⟩]⟩ "s1" "c" :=
  ⟨(c4_flush_last_writer_wins ⟨[("s1", 1)], [], [⟨"s1", "b", Value.raw "x", false, 1⟩]⟩
      "s1" "c1" 7 [TxOp.put "a" (Value.raw "1"), TxOp.del "b",
        TxOp.put "a" (Value.raw "2")]).1 "a" (Value.raw "2") (by decide),
    (c4_flush_last_writer_wins ⟨[("s1", 1)], [], [⟨"s1", "b", Value.raw "x", false, 1⟩]⟩
      "s1" "c1" 7 [TxOp.put "a" (Value.raw "1"), TxOp.del "b",
        TxOp.put "a" (Value.raw "2")]).2.1 "b" (by decide),
    (c4_flush_last_writer_wins ⟨[("s1", 1)], [], [⟨"s1", "b", Value.raw "x", false, 1⟩]⟩
      "s1" "c1" 7 [TxOp.put "a" (Value.raw "1"), TxOp.del "b",
        TxOp.put "a" (Value.raw "2")]).2.2 "c" (by decide)⟩

theorem c6_null_cookie_metadata_witness :
    (∀ op ∈ (pull ⟨[], [], []⟩ "myspace" "c1" none
        [⟨⟨"t", Priority.high, Status.backlog, 3, 3⟩, "z"⟩]).patch,
      ∃ k v, op = PatchOp.put k v ∧ isIssueMetaKey k = true) ∧
    (pull ⟨[], [], []⟩ "myspace" "c1" none
      [⟨⟨"t", Priority.high, Status.backlog, 3, 3⟩, "z"⟩]).cookie = ⟨1, some ""⟩ ∧
    getVersion (initSpace ⟨[], [], []⟩ "myspace"
      [⟨⟨"t", Priority.high, Status.backlog, 3, 3⟩, "z"⟩]) "myspace" = some 1 :=
  c6_null_cookie_metadata ⟨[], [], []⟩ "myspace" "c1"
    [⟨⟨"t", Priority.high, Status.backlog, 3, 3⟩, "z"⟩] (by decide)

theorem c7_delete_visible_in_pull_witness :
    PatchOp.del "k" ∈
      (pull ⟨[("s1", 2)], [], [⟨"s1", "k", Value.raw "x", true, 2⟩]⟩ "s1" "c1"
        (some ⟨0, none⟩) []).patch :=
  (c7_delete_visible_in_pull ⟨[("s1", 2)], [], [⟨"s1", "k", Value.raw "x", true, 2⟩]⟩
    "s1" "c1" [] 0 ⟨"s1", "k", Value.raw "x", true, 2⟩ (by decide) (by decide)
    (by decide) (by decide)).1

/-! ## Adding an already-present key with an identical value -/

theorem jsMapSet_eq_self {β : Type} :
    ∀ {m : List (String × β)} {k : String} {v : β},
      (m.map Prod.fst).Nodup → jsMapGet m k = some v → jsMapSet m k v = m := by
  intro m
  induction m with
  | nil => intro k v _ hget; simp [jsMapGet] at hget
  | cons e m ih =>
    intro k v hnd hget
    have hcont : jsMapContains (e :: m) k = true := jsMapGet_some_contains hget
    by_cases hk : e.1 == k
    · have hev : e.2 = v := by
        unfold jsMapGet at hget
        simp only [List.find?_cons, hk] at hget
        simpa using hget
      have hrest : ∀ e' ∈ m, e'.1 ≠ k := by
        intro e' he' hek
        have : e.1 ∈ m.map Prod.fst := by
          rw [eq_of_beq hk, ← hek]
          exact List.mem_map_of_mem Prod.fst he'
        exact (List.nodup_cons.mp (by simpa using hnd)).1 this
      have hmap : m.map (fun e => if e.1 == k then (k, v) else e) = m := by
        have h1 : m.map (fun e => if e.1 == k then (k, v) else e) = m.map id :=
          List.map_congr_left (fun e' he' => by
            rw [if_neg (by simpa using hrest e' he')]
            rfl)
        rw [h1, List.map_id]
      unfold jsMapSet
      rw [if_pos hcont]
      simp only [List.map_cons]
      rw [if_pos hk, hmap]
      have : (k, v) = e := by
        rcases e with ⟨e1, e2⟩
        simp only at hev
        rw [← eq_of_beq hk, ← hev]
      rw [this]
    · have hkf : (e.1 == k) = false := by simpa using hk
      have hget' : jsMapGet m k = some v := by
        unfold jsMapGet at hget ⊢
        simp only [List.find?_cons, hkf] at hget
        exact hget
      have hnd' : (m.map Prod.fst).Nodup :=
        (List.nodup_cons.mp (by simpa using hnd)).2
      have hcont' : jsMapContains m k = true := jsMapGet_some_contains hget'
      have hset : jsMapSet (e :: m) k v = e :: jsMapSet m k v := by
        unfold jsMapSet
        rw [if_pos hcont, if_pos hcont']
        simp only [List.map_cons]
        rw [if_neg hk]
      rw [hset, ih hnd' hget']

theorem applyDiffOp_add_existing (fs : Filters) (o : IssueOrder)
    {m : IssueMap} {k : String} {v : IssueValue} (c : Int) (fi : List Issue)
    (hnd : (m.map Prod.fst).Nodup)
    (hmem : jsMapGet m k = some (issueFromKeyAndValue k v)) :
    applyDiffOp fs o (m, c, fi) (.add k v) =
      (m,
        (if fs.viewFilter.filter (issueFromKeyAndValue k v) then c + 1 else c),
        (if fs.filter (issueFromKeyAndValue k v) then
          fi.insertIdx (sortedIndexBy fi (issueFromKeyAndValue k v) (orderKey o))
            (issueFromKeyAndValue k v)
        else fi)) := by
  unfold applyDiffOp
  simp only
  rw [jsMapSet_eq_self hnd hmem]

/-- C3 counterexample: in a consistent reducer state with no filter
constraints, applying the same add diff (key already present, identical
value) twice yields a view count and a filtered-list length different from
applying it once, refuting the claimed idempotence. -/
theorem c3_add_not_idempotent :
    (reducer (reducer
        ⟨[("issue/a", ⟨⟨"t", .medium, .todo, 5, 5⟩, "a"⟩)], 1,
          [⟨⟨"t", .medium, .todo, 5, 5⟩, "a"⟩],
          ⟨⟨none, none⟩, ⟨none, none⟩⟩, .modified⟩
        (.diff [.add "issue/a" ⟨"t", .medium, .todo, 5, 5⟩]))
      (.diff [.add "issue/a" ⟨"t", .medium, .todo, 5, 5⟩])).viewIssueCount ≠
    (reducer
        ⟨[("issue/a", ⟨⟨"t", .medium, .todo, 5, 5⟩, "a"⟩)], 1,
          [⟨⟨"t", .medium, .todo, 5, 5⟩, "a"⟩],
          ⟨⟨none, none⟩, ⟨none, none⟩⟩, .modified⟩
        (.diff [.add "issue/a" ⟨"t", .medium, .todo, 5, 5⟩])).viewIssueCount ∧
    (reducer (reducer
        ⟨[("issue/a", ⟨⟨"t", .medium, .todo, 5, 5⟩, "a"⟩)], 1,
          [⟨⟨"t", .medium, .todo, 5, 5⟩, "a"⟩],
          ⟨⟨none, none⟩, ⟨none, none⟩⟩, .modified⟩
        (.diff [.add "issue/a" ⟨"t", .medium, .todo, 5, 5⟩]))
      (.diff [.add "issue/a" ⟨"t", .medium, .todo, 5, 5⟩])).filteredIssues.length ≠
    (reducer
        ⟨[("issue/a", ⟨⟨"t", .medium, .todo, 5, 5⟩, "a"⟩)], 1,
          [⟨⟨"t", .medium, .todo, 5, 5⟩, "a"⟩],
          ⟨⟨none, none⟩, ⟨none, none⟩⟩, .modified⟩
        (.diff [.add "issue/a" ⟨"t", .medium, .todo, 5, 5⟩])).filteredIssues.length := by
  decide

/-- C3 (amended): applying an add diff twice for a key already present with
an identical value yields the same allIssuesMap as applying it once, but the
second application additionally increments viewIssueCount by one exactly when
the issue matches the view filter, and the filtered list gains one more copy
of the issue (up to order) exactly when it matches the combined filter. -/
theorem c3_add_existing_twice (s : State) (k : String) (v : IssueValue)
    (hnd : (s.allIssuesMap.map Prod.fst).Nodup)
    (hmem : jsMapGet s.allIssuesMap k = some (issueFromKeyAndValue k v)) :
    (reducer (reducer s (.diff [.add k v])) (.diff [.add k v])).allIssuesMap =
      (reducer s (.diff [.add k v])).allIssuesMap ∧
    (reducer (reducer s (.diff [.add k v])) (.diff [.add k v])).viewIssueCount =
      (reducer s (.diff [.add k v])).viewIssueCount +
        (if s.filters.viewFilter.filter (issueFromKeyAndValue k v) then 1 else 0) ∧
    ((reducer (reducer s (.diff [.add k v])) (.diff [.add k v])).filteredIssues).Perm
      (if s.filters.filter (issueFromKeyAndValue k v) then
        issueFromKeyAndValue k v :: (reducer s (.diff [.add k v])).filteredIssues
      else (reducer s (.diff [.add k v])).filteredIssues) := by
  have hstep : ∀ (c : Int) (fi : List Issue),
      [DiffOp.add k v].foldl (applyDiffOp s.filters s.issueOrder)
        (s.allIssuesMap, c, fi) =
      (s.allIssuesMap,
        (if s.filters.viewFilter.filter (issueFromKeyAndValue k v) then c + 1 else c),
        (if s.filters.filter (issueFromKeyAndValue k v) then
          fi.insertIdx (sortedIndexBy fi (issueFromKeyAndValue k v)
            (orderKey s.issueOrder)) (issueFromKeyAndValue k v)
        else fi)) := by
    intro c fi
    rw [List.foldl_cons, List.foldl_nil]
    exact applyDiffOp_add_existing s.filters s.issueOrder c fi hnd hmem
  have h1 : reducer s (.diff [.add k v]) =
      { s with
        allIssuesMap := s.allIssuesMap
        viewIssueCount :=
          (if s.filters.viewFilter.filter (issueFromKeyAndValue k v) then
            s.viewIssueCount + 1 else s.viewIssueCount)
        filteredIssues :=
          (if s.filters.filter (issueFromKeyAndValue k v) then
            s.filteredIssues.insertIdx
              (sortedIndexBy s.filteredIssues (issueFromKeyAndValue k v)
                (orderKey s.issueOrder)) (issueFromKeyAndValue k v)
          else s.filteredIssues) } := by
    show { s with
        allIssuesMap := ([DiffOp.add k v].foldl
          (applyDiffOp s.filters s.issueOrder)
          (s.allIssuesMap, s.viewIssueCount, s.filteredIssues)).1
        viewIssueCount := ([DiffOp.add k v].foldl
          (applyDiffOp s.filters s.issueOrder)
          (s.allIssuesMap, s.viewIssueCount, s.filteredIssues)).2.1
        filteredIssues := ([DiffOp.add k v].foldl
          (applyDiffOp s.filters s.issueOrder)
          (s.allIssuesMap, s.viewIssueCount, s.filteredIssues)).2.2 } = _
    rw [hstep]
  rw [h1]
  refine ⟨?_, ?_, ?_⟩
  · show ([DiffOp.add k v].foldl (applyDiffOp s.filters s.issueOrder) _).1 = _
    rw [hstep]
  · show ([DiffOp.add k v].foldl (applyDiffOp s.filters s.issueOrder) _).2.1 = _
    rw [hstep]
    dsimp only
    by_cases hv : s.filters.viewFilter.filter (issueFromKeyAndValue k v) <;>
      simp [hv]
  · show (([DiffOp.add k v].foldl (applyDiffOp s.filters s.issueOrder) _).2.2).Perm _
    rw [hstep]
    dsimp only
    by_cases hc : s.filters.filter (issueFromKeyAndValue k v)
    · simp only [hc, if_true]
      exact insertIdx_perm _ _ _ (sortedIndexBy_le_length _ _ _)
    · simp only [hc, if_false]
      exact List.Perm.refl _

theorem c3_add_existing_twice_witness :
    (reducer (reducer
        ⟨[("issue/a", ⟨⟨"t", .medium, .todo, 5, 5⟩, "a"⟩)], 1,
          [⟨⟨"t", .medium, .todo, 5, 5⟩, "a"⟩],
          ⟨⟨none, none⟩, ⟨none, none⟩⟩, .modified⟩
        (.diff [.add "issue/a" ⟨"t", .medium, .todo, 5, 5⟩]))
      (.diff [.add "issue/a" ⟨"t", .medium, .todo, 5, 5⟩])).allIssuesMap =
      (reducer
        ⟨[("issue/a", ⟨⟨"t", .medium, .todo, 5, 5⟩, "a"⟩)], 1,
          [⟨⟨"t", .medium, .todo, 5, 5⟩, "a"⟩],
          ⟨⟨none, none⟩, ⟨none, none⟩⟩, .modified⟩
        (.diff [.add "issue/a" ⟨"t", .medium, .todo, 5, 5⟩])).allIssuesMap ∧
    (reducer (reducer
        ⟨[("issue/a", ⟨⟨"t", .medium, .todo, 5, 5⟩, "a"⟩)], 1,
          [⟨⟨"t", .medium, .todo, 5, 5⟩, "a"⟩],
          ⟨⟨none, none⟩, ⟨none, none⟩⟩, .modified⟩
        (.diff [.add "issue/a" ⟨"t", .medium, .todo, 5, 5⟩]))
      (.diff [.add "issue/a" ⟨"t", .medium, .todo, 5, 5⟩])).viewIssueCount =
      (reducer
        ⟨[("issue/a", ⟨⟨"t", .medium, .todo, 5, 5⟩, "a"⟩)], 1,
          [⟨⟨"t", .medium, .todo, 5, 5⟩, "a"⟩],
          ⟨⟨none, none⟩, ⟨none, none⟩⟩, .modified⟩
        (.diff [.add "issue/a" ⟨"t", .medium, .todo, 5, 5⟩])).viewIssueCount +
        (if (⟨⟨none, none⟩, ⟨none, none⟩⟩ : Filters).viewFilter.filter
          (issueFromKeyAndValue "issue/a" ⟨"t", .medium, .todo, 5, 5⟩) then 1 else 0) ∧
    ((reducer (reducer
        ⟨[("issue/a", ⟨⟨"t", .medium, .todo, 5, 5⟩, "a"⟩)], 1,
          [⟨⟨"t", .medium, .todo, 5, 5⟩, "a"⟩],
          ⟨⟨none, none⟩, ⟨none, none⟩⟩, .modified⟩
        (.diff [.add "issue/a" ⟨"t", .medium, .todo, 5, 5⟩]))
      (.diff [.add "issue/a" ⟨"t", .medium, .todo, 5, 5⟩])).filteredIssues).Perm
      (if (⟨⟨none, none⟩, ⟨none, none⟩⟩ : Filters).filter
          (issueFromKeyAndValue "issue/a" ⟨"t", .medium, .todo, 5, 5⟩) then
        issueFromKeyAndValue "issue/a" ⟨"t", .medium, .todo, 5, 5⟩ ::
          (reducer
            ⟨[("issue/a", ⟨⟨"t", .medium, .todo, 5, 5⟩, "a"⟩)], 1,
              [⟨⟨"t", .medium, .todo, 5, 5⟩, "a"⟩],
              ⟨⟨none, none⟩, ⟨none, none⟩⟩, .modified⟩
            (.diff [.add "issue/a" ⟨"t", .medium, .todo, 5, 5⟩])).filteredIssues
      else (reducer
            ⟨[("issue/a", ⟨⟨"t", .medium, .todo, 5, 5⟩, "a"⟩)], 1,
              [⟨⟨"t", .medium, .todo, 5, 5⟩, "a"⟩],
              ⟨⟨none, none⟩, ⟨none, none⟩⟩, .modified⟩
            (.diff [.add "issue/a" ⟨"t", .medium, .todo, 5, 5⟩])).filteredIssues) :=
  c3_add_existing_twice
    ⟨[("issue/a", ⟨⟨"t", .medium, .todo, 5, 5⟩, "a"⟩)], 1,
      [⟨⟨"t", .medium, .todo, 5, 5⟩, "a"⟩],
      ⟨⟨none, none⟩, ⟨none, none⟩⟩, .modified⟩
    "issue/a" ⟨"t", .medium, .todo, 5, 5⟩ (by decide) (by decide)

/-! ## The reducer invariant -/

theorem wf_values_ids_nodup {m : IssueMap}
    (hnd : (m.map Prod.fst).Nodup)
    (hwf : ∀ e ∈ m, (∃ id, e.1 = issuePrefix ++ id) ∧
      e.2.id = e.1.drop issuePrefix.length) :
    ((jsMapValues m).map Issue.id).Nodup := by
  unfold jsMapValues
  rw [List.map_map]
  have h1 : m.map (Issue.id ∘ Prod.snd) =
      m.map (fun e => e.1.drop issuePrefix.length) :=
    List.map_congr_left (fun e he => (hwf e he).2)
  have h2 : m.map (fun e => e.1.drop issuePrefix.length) =
      (m.map Prod.fst).map (fun k => k.drop issuePrefix.length) := by
    rw [List.map_map]
    rfl
  rw [h1, h2]
  apply List.Nodup.map_on ?_ hnd
  intro x hx y hy hxy
  obtain ⟨e₁, he₁, rfl⟩ := List.mem_map.mp hx
  obtain ⟨e₂, he₂, rfl⟩ := List.mem_map.mp hy
  exact prefix_key_inj (hwf e₁ he₁).1 (hwf e₂ he₂).1 hxy

theorem key_fresh_of_id_fresh {o : IssueOrder} {l : List Issue} {x : Issue}
    (h : ∀ z ∈ l, z.id ≠ x.id) :
    ∀ z ∈ l, orderKey o z ≠ orderKey o x :=
  fun z hz hk => h z hz (orderKey_inj hk)

theorem sorted_strict_of_ids_nodup {o : IssueOrder} {l : List Issue}
    (hs : List.Sorted (leKey (orderKey o)) l)
    (hids : (l.map Issue.id).Nodup) :
    List.Sorted (ltKey (orderKey o)) l := by
  have hne : l.Pairwise (fun a b => a.id ≠ b.id) := List.pairwise_map.mp hids
  have hkne : l.Pairwise (fun a b => orderKey o a ≠ orderKey o b) :=
    hne.imp (fun h hk => h (orderKey_inj hk))
  exact (hs.and hkne).imp (fun h => strLt_of_strLe_of_ne h.1 h.2)

theorem ids_nodup_of_perm_filter {vs fi : List Issue} {p : Issue → Bool}
    (hperm : fi.Perm (vs.filter p)) (hids : (vs.map Issue.id).Nodup) :
    (fi.map Issue.id).Nodup := by
  have h1 : ((vs.filter p).map Issue.id).Nodup :=
    List.Nodup.sublist (List.Sublist.map Issue.id (List.filter_sublist vs)) hids
  exact ((hperm.map Issue.id).nodup_iff).mpr h1

/-- From the invariant, the filtered list equals the from-scratch
recomputation filterAndSort of the map values. -/
theorem eq_filterAndSort_of_inv {fs : Filters} {o : IssueOrder} {m : IssueMap}
    {fi : List Issue} (h : Inv fs o m fi) :
    fi = filterAndSort fs o (jsMapValues m) := by
  obtain ⟨hnd, hwf, hsort, hperm⟩ := h
  have hids : ((jsMapValues m).map Issue.id).Nodup := wf_values_ids_nodup hnd hwf
  have hperm2 : (filterAndSort fs o (jsMapValues m)).Perm
      ((jsMapValues m).filter (fun i => fs.filter i)) := sortBy_perm _ _
  have hsort2 : List.Sorted (ltKey (orderKey o)) (filterAndSort fs o (jsMapValues m)) := by
    apply sorted_strict_of_ids_nodup (sortBy_sorted _ _)
    exact ids_nodup_of_perm_filter hperm2 hids
  haveI : IsAntisymm Issue (ltKey (orderKey o)) :=
    ⟨fun a b h1 h2 => absurd (strLt_asymm h1 h2) not_false⟩
  exact List.eq_of_perm_of_sorted (hperm.trans hperm2.symm) hsort hsort2

/-! ## The two list phases of a diff operation -/

/-- Removing the old issue: the defensive identity-checked splice of the del
and change cases.  Against a strictly sorted list that is a permutation of
the filtered values (vs being a permutation of y on top of the remaining
values vs'), it removes exactly the old issue when it passes the filter and
does nothing otherwise. -/
theorem erase_step {fs : Filters} {o : IssueOrder} {fi vs vs' : List Issue}
    {y : Issue} (hsort : List.Sorted (ltKey (orderKey o)) fi)
    (hperm : fi.Perm (vs.filter (fun i => fs.filter i)))
    (hsplit : vs.Perm (y :: vs')) (hids : (vs.map Issue.id).Nodup) :
    List.Sorted (ltKey (orderKey o))
      (match fi.get? (sortedIndexBy fi y (orderKey o)) with
        | some found => if found.id == y.id then
            fi.eraseIdx (sortedIndexBy fi y (orderKey o)) else fi
        | none => fi) ∧
    (match fi.get? (sortedIndexBy fi y (orderKey o)) with
      | some found => if found.id == y.id then
          fi.eraseIdx (sortedIndexBy fi y (orderKey o)) else fi
      | none => fi).Perm (vs'.filter (fun i => fs.filter i)) := by
  have hfperm : (vs.filter (fun i => fs.filter i)).Perm
      ((y :: vs').filter (fun i => fs.filter i)) := hsplit.filter _
  cases hy : fs.filter y with
  | true =>
    have hyfi : y ∈ fi := by
      apply hperm.mem_iff.mpr
      apply List.mem_filter.mpr
      exact ⟨hsplit.mem_iff.mpr (List.mem_cons_self y vs'), hy⟩
    obtain ⟨hget, hsorted', hperm'⟩ := erase_sorted_mem hsort hyfi
    rw [hget]
    simp only [beq_self_eq_true, if_true]
    refine ⟨hsorted', ?_⟩
    have h1 : fi.Perm (y :: vs'.filter (fun i => fs.filter i)) := by
      refine hperm.trans (hfperm.trans ?_)
      rw [List.filter_cons, if_pos hy]
    exact (hperm'.symm.trans h1).cons_inv
  | false =>
    have hynfi : y ∉ fi := by
      intro hyfi
      have := (List.mem_filter.mp (hperm.mem_iff.mp hyfi)).2
      rw [hy] at this
      exact absurd this (by simp)
    have hidne : ∀ z ∈ fi, z.id ≠ y.id := by
      intro z hz hzy
      have hzvs : z ∈ vs :=
        (List.filter_sublist vs).mem (hperm.mem_iff.mp hz)
      have hyvs : y ∈ vs := hsplit.mem_iff.mpr (List.mem_cons_self y vs')
      have := List.inj_on_of_nodup_map hids hzvs hyvs hzy
      rw [this] at hz
      exact hynfi hz
    have hsame :
        (match fi.get? (sortedIndexBy fi y (orderKey o)) with
          | some found => if found.id == y.id then
              fi.eraseIdx (sortedIndexBy fi y (orderKey o)) else fi
          | none => fi) = fi := by
      cases hget : fi.get? (sortedIndexBy fi y (orderKey o)) with
      | none => rfl
      | some found =>
        have hfound : found ∈ fi := List.get?_mem hget
        show (if found.id == y.id then
          fi.eraseIdx (sortedIndexBy fi y (orderKey o)) else fi) = fi
        rw [if_neg (by simp [hidne found hfound])]
    rw [hsame]
    refine ⟨hsort, ?_⟩
    refine hperm.trans (hfperm.trans ?_)
    rw [List.filter_cons, if_neg (by simp [hy])]

/-- Inserting the new issue at its binary-search index: the add and change
cases.  Against a strictly sorted list that is a permutation of the filtered
remaining values, with the new issue's id fresh among those values, it adds
exactly the new issue when it passes the filter. -/
theorem insert_step {fs : Filters} {o : IssueOrder} {fi1 vs' : List Issue}
    {x : Issue} (hsort : List.Sorted (ltKey (orderKey o)) fi1)
    (hperm : fi1.Perm (vs'.filter (fun i => fs.filter i)))
    (hfresh : ∀ z ∈ vs', z.id ≠ x.id) :
    List.Sorted (ltKey (orderKey o))
      (if fs.filter x then
        fi1.insertIdx (sortedIndexBy fi1 x (orderKey o)) x else fi1) ∧
    (if fs.filter x then
      fi1.insertIdx (sortedIndexBy fi1 x (orderKey o)) x else fi1).Perm
      ((x :: vs').filter (fun i => fs.filter i)) := by
  have hfresh1 : ∀ z ∈ fi1, orderKey o z ≠ orderKey o x := by
    apply key_fresh_of_id_fresh
    intro z hz
    exact hfresh z ((List.filter_sublist vs').mem (hperm.mem_iff.mp hz))
  cases hx : fs.filter x with
  | true =>
    rw [if_pos rfl]
    obtain ⟨hsorted', hperm'⟩ := insert_sorted hsort hfresh1
    refine ⟨hsorted', ?_⟩
    rw [List.filter_cons, if_pos hx]
    exact hperm'.trans (hperm.cons x)
  | false =>
    rw [if_neg (by simp [hx])]
    refine ⟨hsort, ?_⟩
    rw [List.filter_cons, if_neg (by simp [hx])]
    exact hperm

/-! ## Invariant preservation by one diff operation -/

theorem applyDiffOp_inv (fs : Filters) (o : IssueOrder) {m : IssueMap}
    {fi : List Issue} (c : Int) {op : DiffOp}
    (hInv : Inv fs o m fi) (hop : WfOp m op) :
    ∃ c' fi', applyDiffOp fs o (m, c, fi) op = (opMap m op, c', fi') ∧
      Inv fs o (opMap m op) fi' := by
  obtain ⟨hnd, hwf, hsort, hperm⟩ := hInv
  have hids : ((jsMapValues m).map Issue.id).Nodup := wf_values_ids_nodup hnd hwf
  cases op with
  | add k v =>
    obtain ⟨hget, id₀, hk⟩ := hop
    have hfresh : ∀ z ∈ jsMapValues m, z.id ≠ (issueFromKeyAndValue k v).id := by
      intro z hz hzx
      obtain ⟨e, he, rfl⟩ := List.mem_map.mp hz
      have h1 : e.2.id = e.1.drop issuePrefix.length := (hwf e he).2
      have h2 : (issueFromKeyAndValue k v).id = k.drop issuePrefix.length := rfl
      have hek : e.1 = k :=
        prefix_key_inj (hwf e he).1 ⟨id₀, hk⟩ (by rw [← h1, ← h2, hzx])
      exact jsMapGet_none_keys hget (hek ▸ List.mem_map_of_mem Prod.fst he)
    obtain ⟨hs', hp'⟩ := insert_step hsort hperm hfresh
    refine ⟨_, _, rfl, ?_⟩
    have hm' : jsMapSet m k (issueFromKeyAndValue k v) =
        m ++ [(k, issueFromKeyAndValue k v)] := jsMapSet_of_get_none _ hget
    refine ⟨nodup_keys_jsMapSet _ hnd, ?_, hs', ?_⟩
    · intro e he
      rcases mem_jsMapSet he with rfl | he'
      · exact ⟨⟨id₀, hk⟩, rfl⟩
      · exact hwf e he'
    · simp only [opMap]
      rw [hm']
      have hvals : jsMapValues (m ++ [(k, issueFromKeyAndValue k v)]) =
          jsMapValues m ++ [issueFromKeyAndValue k v] := by
        simp [jsMapValues]
      rw [hvals]
      exact hp'.trans
        (((List.perm_append_singleton _ _).symm).filter _)
  | del k ov =>
    have hget : jsMapGet m k = some (issueFromKeyAndValue k ov) := hop
    have hsplit : (jsMapValues m).Perm
        (issueFromKeyAndValue k ov :: jsMapValues (jsMapDelete m k)) :=
      jsMapValues_delete_perm hnd hget
    obtain ⟨hs', hp'⟩ := erase_step hsort hperm hsplit hids
    refine ⟨_, _, rfl, ?_⟩
    refine ⟨nodup_keys_jsMapDelete hnd, ?_, hs', hp'⟩
    intro e he
    exact hwf e (mem_jsMapDelete he).1
  | change k ov nv =>
    have hget : jsMapGet m k = some (issueFromKeyAndValue k ov) := hop
    have hkpre : ∃ id, k = issuePrefix ++ id :=
      (hwf (k, issueFromKeyAndValue k ov) (jsMapGet_some_mem hget)).1
    have hsplit : (jsMapValues m).Perm
        (issueFromKeyAndValue k ov :: jsMapValues (jsMapDelete m k)) :=
      jsMapValues_delete_perm hnd hget
    obtain ⟨hs1, hp1⟩ := erase_step hsort hperm hsplit hids
    have hfresh : ∀ z ∈ jsMapValues (jsMapDelete m k),
        z.id ≠ (issueFromKeyAndValue k nv).id := by
      intro z hz hzx
      obtain ⟨e, he, rfl⟩ := List.mem_map.mp hz
      obtain ⟨hem, hek⟩ := mem_jsMapDelete he
      have h1 : e.2.id = e.1.drop issuePrefix.length := (hwf e hem).2
      have h2 : (issueFromKeyAndValue k nv).id = k.drop issuePrefix.length := rfl
      exact hek (prefix_key_inj (hwf e hem).1 hkpre (by rw [← h1, ← h2, hzx]))
    obtain ⟨hs2, hp2⟩ := insert_step hs1 hp1 hfresh
    refine ⟨_, _, rfl, ?_⟩
    have hcont : jsMapContains m k = true := jsMapGet_some_contains hget
    refine ⟨nodup_keys_jsMapSet _ hnd, ?_, hs2, ?_⟩
    · intro e he
      rcases mem_jsMapSet he with rfl | he'
      · exact ⟨hkpre, rfl⟩
      · exact hwf e he'
    · have hvals' : (jsMapValues (jsMapSet m k (issueFromKeyAndValue k nv))).Perm
          (issueFromKeyAndValue k nv :: jsMapValues (jsMapDelete m k)) :=
        jsMapValues_set_perm _ hnd hget
      exact hp2.trans ((hvals'.symm).filter _)

theorem foldl_diff_inv (fs : Filters) (o : IssueOrder) :
    ∀ (ops : List DiffOp) (m : IssueMap) (c : Int) (fi : List Issue),
      Inv fs o m fi → WfOps m ops →
      ∃ c' fi', ops.foldl (applyDiffOp fs o) (m, c, fi) = (opsMap m ops, c', fi') ∧
        Inv fs o (opsMap m ops) fi' := by
  intro ops
  induction ops with
  | nil => intro m c fi hInv _; exact ⟨c, fi, rfl, hInv⟩
  | cons op ops ih =>
    intro m c fi hInv hops
    cases hops with
    | cons h1 h2 =>
      obtain ⟨c1, fi1, heq, hInv1⟩ := applyDiffOp_inv fs o c hInv h1
      rw [List.foldl_cons, heq]
      obtain ⟨c', fi', heq', hInv'⟩ := ih (opMap m op) c1 fi1 hInv1 h2
      exact ⟨c', fi', heq', hInv'⟩

theorem reducer_diff_actions :
    ∀ (acts : List Action) (s : State),
      Inv s.filters s.issueOrder s.allIssuesMap s.filteredIssues →
      WfDiffActions s.allIssuesMap acts →
      (acts.foldl reducer s).filters = s.filters ∧
      (acts.foldl reducer s).issueOrder = s.issueOrder ∧
      Inv s.filters s.issueOrder (acts.foldl reducer s).allIssuesMap
        (acts.foldl reducer s).filteredIssues := by
  intro acts
  induction acts with
  | nil => intro s hInv _; exact ⟨rfl, rfl, hInv⟩
  | cons act acts ih =>
    intro s hInv hacts
    cases hacts with
    | @cons _ ops _ hops hrest =>
      rw [List.foldl_cons]
      obtain ⟨c', fi', heq, hInv'⟩ :=
        foldl_diff_inv s.filters s.issueOrder ops s.allIssuesMap
          s.viewIssueCount s.filteredIssues hInv hops
      have hs1map : (reducer s (.diff ops)).allIssuesMap =
          opsMap s.allIssuesMap ops := by
        show (ops.foldl (applyDiffOp s.filters s.issueOrder)
          (s.allIssuesMap, s.viewIssueCount, s.filteredIssues)).1 = _
        rw [heq]
      have hs1fi : (reducer s (.diff ops)).filteredIssues = fi' := by
        show (ops.foldl (applyDiffOp s.filters s.issueOrder)
          (s.allIssuesMap, s.viewIssueCount, s.filteredIssues)).2.2 = _
        rw [heq]
      have hInv1 : Inv (reducer s (.diff ops)).filters
          (reducer s (.diff ops)).issueOrder
          (reducer s (.diff ops)).allIssuesMap
          (reducer s (.diff ops)).filteredIssues := by
        show Inv s.filters s.issueOrder (reducer s (.diff ops)).allIssuesMap
          (reducer s (.diff ops)).filteredIssues
        rw [hs1map, hs1fi]
        exact hInv'
      have hacts1 : WfDiffActions (reducer s (.diff ops)).allIssuesMap acts := by
        rw [hs1map]
        exact hrest
      obtain ⟨hf, ho, hI⟩ := ih (reducer s (.diff ops)) hInv1 hacts1
      exact ⟨hf, ho, hI⟩

theorem reducer_init_inv (s0 : State) (m0 : IssueMap) (hm : WfMap m0) :
    Inv s0.filters s0.issueOrder (reducer s0 (.init m0)).allIssuesMap
      (reducer s0 (.init m0)).filteredIssues := by
  obtain ⟨hnd, hwf⟩ := hm
  refine ⟨hnd, hwf, ?_, ?_⟩
  · show List.Sorted (ltKey (orderKey s0.issueOrder))
      (filterAndSort s0.filters s0.issueOrder (jsMapValues m0))
    apply sorted_strict_of_ids_nodup (sortBy_sorted _ _)
    exact ids_nodup_of_perm_filter (sortBy_perm _ _) (wf_values_ids_nodup hnd hwf)
  · exact sortBy_perm _ _

/-- C2: starting from any state, after an init action with a well-formed map
and any sequence of well-formed diff actions (each add for an absent
issue-prefixed key, each del/change carrying the currently stored old value),
the filtered list equals the from-scratch recomputation: the values of the
issue map, filtered by the combined view-and-additional filter and sorted by
the configured order key. -/
theorem c2_filtered_equals_recompute (s0 : State) (m0 : IssueMap)
    (acts : List Action) (hm : WfMap m0) (hacts : WfDiffActions m0 acts) :
    ((Action.init m0 :: acts).foldl reducer s0).filteredIssues =
      filterAndSort ((Action.init m0 :: acts).foldl reducer s0).filters
        ((Action.init m0 :: acts).foldl reducer s0).issueOrder
        (jsMapValues ((Action.init m0 :: acts).foldl reducer s0).allIssuesMap) := by
  rw [List.foldl_cons]
  have hInv0 : Inv (reducer s0 (.init m0)).filters
      (reducer s0 (.init m0)).issueOrder
      (reducer s0 (.init m0)).allIssuesMap
      (reducer s0 (.init m0)).filteredIssues := reducer_init_inv s0 m0 hm
  have hacts' : WfDiffActions (reducer s0 (.init m0)).allIssuesMap acts := hacts
  obtain ⟨hf, ho, hInv⟩ :=
    reducer_diff_actions acts (reducer s0 (.init m0)) hInv0 hacts'
  rw [hf, ho]
  exact eq_filterAndSort_of_inv hInv

theorem c2_filtered_equals_recompute_witness :
    ((Action.init [("issue/a", ⟨⟨"ta", .low, .todo, 1, 1⟩, "a"⟩)] ::
        [Action.diff [DiffOp.add "issue/b" ⟨"tb", .high, .backlog, 2, 2⟩,
            DiffOp.change "issue/a" ⟨"ta", .low, .todo, 1, 1⟩ ⟨"tc", .low, .done, 3, 3⟩],
          Action.diff [DiffOp.del "issue/b" ⟨"tb", .high, .backlog, 2, 2⟩]]).foldl
        reducer ⟨[], 0, [], ⟨⟨none, none⟩, ⟨none, none⟩⟩, .modified⟩).filteredIssues =
      filterAndSort
        ((Action.init [("issue/a", ⟨⟨"ta", .low, .todo, 1, 1⟩, "a"⟩)] ::
            [Action.diff [DiffOp.add "issue/b" ⟨"tb", .high, .backlog, 2, 2⟩,
                DiffOp.change "issue/a" ⟨"ta", .low, .todo, 1, 1⟩ ⟨"tc", .low, .done, 3, 3⟩],
              Action.diff [DiffOp.del "issue/b" ⟨"tb", .high, .backlog, 2, 2⟩]]).foldl
            reducer ⟨[], 0, [], ⟨⟨none, none⟩, ⟨none, none⟩⟩, .modified⟩).filters
        ((Action.init [("issue/a", ⟨⟨"ta", .low, .todo, 1, 1⟩, "a"⟩)] ::
            [Action.diff [DiffOp.add "issue/b" ⟨"tb", .high, .backlog, 2, 2⟩,
                DiffOp.change "issue/a" ⟨"ta", .low, .todo, 1, 1⟩ ⟨"tc", .low, .done, 3, 3⟩],
              Action.diff [DiffOp.del "issue/b" ⟨"tb", .high, .backlog, 2, 2⟩]]).foldl
            reducer ⟨[], 0, [], ⟨⟨none, none⟩, ⟨none, none⟩⟩, .modified⟩).issueOrder
        (jsMapValues
          ((Action.init [("issue/a", ⟨⟨"ta", .low, .todo, 1, 1⟩, "a"⟩)] ::
              [Action.diff [DiffOp.add "issue/b" ⟨"tb", .high, .backlog, 2, 2⟩,
                  DiffOp.change "issue/a" ⟨"ta", .low, .todo, 1, 1⟩ ⟨"tc", .low, .done, 3, 3⟩],
                Action.diff [DiffOp.del "issue/b" ⟨"tb", .high, .backlog, 2, 2⟩]]).foldl
              reducer ⟨[], 0, [], ⟨⟨none, none⟩, ⟨none, none⟩⟩, .modified⟩).allIssuesMap) :=
  c2_filtered_equals_recompute
    ⟨[], 0, [], ⟨⟨none, none⟩, ⟨none, none⟩⟩, .modified⟩
    [("issue/a", ⟨⟨"ta", .low, .todo, 1, 1⟩, "a"⟩)]
    [Action.diff [DiffOp.add "issue/b" ⟨"tb", .high, .backlog, 2, 2⟩,
        DiffOp.change "issue/a" ⟨"ta", .low, .todo, 1, 1⟩ ⟨"tc", .low, .done, 3, 3⟩],
      Action.diff [DiffOp.del "issue/b" ⟨"tb", .high, .backlog, 2, 2⟩]]
    (by
      constructor
      · decide
      · intro e he
        simp only [List.mem_singleton] at he
        subst he
        exact ⟨⟨"a", by decide⟩, by decide⟩)
    (by
      refine WfDiffActions.cons ?_ (WfDiffActions.cons ?_ (WfDiffActions.nil _))
      · refine WfOps.cons ?_ (WfOps.cons ?_ (WfOps.nil _))
        · exact ⟨by decide, ⟨"b", by decide⟩⟩
        · show jsMapGet _ "issue/a" =
            some (issueFromKeyAndValue "issue/a" ⟨"ta", .low, .todo, 1, 1⟩)
          decide
      · refine WfOps.cons ?_ (WfOps.nil _)
        · show jsMapGet _ "issue/b" =
            some (issueFromKeyAndValue "issue/b" ⟨"tb", .high, .backlog, 2, 2⟩)
          decide)

end Repliear
